import Mathlib

/-!
# bopwerks/logic: a truth-table validity checker for propositional arguments

Shallow embedding of `src/main.c`.

Conventions of the embedding
* A value of type `Node` is a C value of type `Node *`: `Node.null` is the
  `NULL` pointer, `Node.mk type id left right` points to a struct with these
  four fields.
* `int`/`unsigned` values are natural numbers; the only place where the width
  matters is `1 << p->nvar`.  For `nvar ≥ 32` the C standard leaves that
  shift undefined: the statements about the program are made for `nvar < 32`,
  or for every count `n` that an `unsigned` can hold.
* `Outcome` separates a normal return (`done`), a run that stops in an
  assertion failure or a null dereference (`crash`), and a model run that was
  given too little recursion budget (`timeout`).
* The build modelled is the default one (`NDEBUG` not defined), so `assert`
  is active.  The trace macros `ENTER`, `PRINT`, `RETURN`, `EXIT` only write
  to `stderr` and are not modelled.
* `malloc` is assumed to succeed.
* The arrays `tok[MAXTOK]` and `var[MAXVARS]` of the session are lists; the
  source never tests an index against the capacity, and a store outside the
  array sets the field `overrun` of the session for good.  The C standard
  defines no behaviour after such a store, so the statements about the
  program are made for runs in which `overrun` stays `false` (and in which
  `main` reads at most `MAXEXPR` formulas into `expr[MAXEXPR]`).
-/

namespace Logic

/-! ## Data model -/

/-- The C enumeration `enum Token`. -/
inductive Token where
  | AND | OR | NOT | IF | IFF | LPAREN | RPAREN | ID
  deriving DecidableEq

/-- A C value of type `Node *`: either `NULL` or a pointer to a node. -/
inductive Node where
  | null : Node
  | mk (type : Token) (id : Nat) (left right : Node) : Node
  deriving DecidableEq

/-- The C function `mknode` (allocation is assumed to succeed). -/
def mknode (type : Token) (id : Nat) (left right : Node) : Node :=
  Node.mk type id left right

/-- Result of running a piece of the program. -/
inductive Outcome (α : Type) where
  | done (a : α) : Outcome α
  | crash : Outcome α
  | timeout : Outcome α
  deriving DecidableEq

/-! ## Evaluator -/

/-- The C operator `~` on a 32-bit word. -/
def bnot32 (x : Nat) : Nat := 4294967295 - x % 4294967296

/-- The C function `eval`.  `none` is a run that dereferences `NULL` or
reaches `assert(0)`. -/
def eval : Node → Nat → Option Nat
  | Node.null, _ => none
  | Node.mk Token.ID id _ _, env => some ((env >>> id) &&& 1)
  | Node.mk Token.AND _ l r, env =>
      match eval l env, eval r env with
      | some a, some b => some (a ||| b)
      | _, _ => none
  | Node.mk Token.OR _ l r, env =>
      match eval l env, eval r env with
      | some a, some b => some (a ||| b)
      | _, _ => none
  | Node.mk Token.NOT _ l _, env =>
      match eval l env with
      | some a => some (bnot32 a &&& 1)
      | none => none
  | Node.mk Token.IF _ l r, env =>
      match eval l env, eval r env with
      | some a, some b => some ((bnot32 a ||| b) &&& 1)
      | _, _ => none
  | Node.mk Token.IFF _ l r, env =>
      match eval l env, eval r env with
      | some a, some b => some ((bnot32 a ||| b) &&& 1)
      | _, _ => none
  | Node.mk Token.LPAREN _ _ _, _ => none
  | Node.mk Token.RPAREN _ _ _, _ => none

/-! ## Validity loop of `main` -/

/-- Verdict of one pass of the inner `for (j = 0; j < nexpr; ++j)` loop. -/
inductive Pass where
  | next : Pass
  | invalid : Pass
  deriving DecidableEq

/-- The inner loop of `main` from position `j` on, the list being
`expr[j..nexpr)`.  A false formula that is the last one (`j == nexpr-1`)
sets `valid = 0` and leaves both loops; a false earlier formula sets
`j = nexpr`, which ends the pass. -/
def inner : List Node → Nat → Option Pass
  | [], _ => some Pass.next
  | e :: rest, i =>
      match eval e i with
      | none => none
      | some v =>
          if v = 0 then
            (if rest.isEmpty then some Pass.invalid else some Pass.next)
          else inner rest i

/-- The outer loop `for (i = ...; i < n; ++i)` of `main` with `k = n - i`
iterations left; the result is the final value of `valid`. -/
def outer (expr : List Node) : Nat → Nat → Option Bool
  | _, 0 => some true
  | i, k + 1 =>
      match inner expr i with
      | none => none
      | some Pass.invalid => some false
      | some Pass.next => outer expr (i + 1) k

/-- The C expression `1 << nvar` stored in an `unsigned`.  For `nvar ≥ 32`
the C standard leaves the shift undefined; the value modulo `2^32` stands
there, and the theorems on the verdict are stated for `nvar < 32` or for
every count that an `unsigned` can hold. -/
def shl1 (nvar : Nat) : Nat := (1 <<< nvar) % 4294967296

/-- Lines 420-433 of `main`: the value of `valid` at label `done`. -/
def validity (expr : List Node) (nvar : Nat) : Option Bool :=
  outer expr 0 (shl1 nvar)

/-! ## Well-formed trees -/

/-- Shape invariant of the data model: a variable has no children, a
negation has exactly a left child, a binary node has two children. -/
def WellFormed : Node → Prop
  | Node.null => False
  | Node.mk Token.ID _ l r => l = Node.null ∧ r = Node.null
  | Node.mk Token.NOT _ l r => WellFormed l ∧ r = Node.null
  | Node.mk Token.AND _ l r => WellFormed l ∧ WellFormed r
  | Node.mk Token.OR _ l r => WellFormed l ∧ WellFormed r
  | Node.mk Token.IF _ l r => WellFormed l ∧ WellFormed r
  | Node.mk Token.IFF _ l r => WellFormed l ∧ WellFormed r
  | Node.mk Token.LPAREN _ _ _ => False
  | Node.mk Token.RPAREN _ _ _ => False

/-! ## Lexer -/

/-- The C library predicate `isspace` in the "C" locale. -/
def isspace (c : Char) : Bool :=
  c = ' ' || c = '\t' || c = '\n' || c = '\x0b' || c = '\x0c' || c = '\r'

/-- The C library predicate `isalpha` in the "C" locale. -/
def isalpha (c : Char) : Bool :=
  ('a' ≤ c && c ≤ 'z') || ('A' ≤ c && c ≤ 'Z')

/-- The C string held in a character buffer: the characters before the
first NUL. -/
def cstr (buf : List Char) : List Char :=
  buf.takeWhile (fun c => c != '\x00')

/-- The test `!strcmp(a, b)`. -/
def streq (a b : List Char) : Bool :=
  cstr a == cstr b

/-- The constants of `enum { MAXEXPR = 10, MAXVARS = 100, MAXTOK = 64 }`. -/
def MAXEXPR : Nat := 10

/-- The capacity of the array `var` of the session. -/
def MAXVARS : Nat := 100

/-- The capacity of the array `tok` of the session. -/
def MAXTOK : Nat := 64

/-- The parsing session `struct Parser`.  `var` holds `var[0..nvar)`, `tok`
the characters written to the token buffer by the last `readtoken`, `fp`
the unread rest of the input stream, and `next` the lookahead, `none` being
`EOF`.  `overrun` is not a field of the C struct: it records that the run
has stored outside `tok[0..MAXTOK)` or `var[0..MAXVARS)`, after which the C
standard defines no behaviour. -/
structure Parser where
  var : List (List Char)
  tok : List Char
  fp : List Char
  next : Option Token
  overrun : Bool := false
  deriving DecidableEq

/-- The field `nvar`: the number of entries of `var` in use. -/
def Parser.nvar (p : Parser) : Nat := p.var.length

/-- The chain of `strcmp` tests at the end of `readtoken`. -/
def classify (tok : List Char) : Token :=
  if streq ['~'] tok then Token.NOT
  else if streq ['o', 'r'] tok then Token.OR
  else if streq ['n', 'o', 't'] tok then Token.NOT
  else if streq ['<', '-', '>'] tok then Token.IFF
  else if streq ['-', '>'] tok then Token.IF
  else if streq ['('] tok then Token.LPAREN
  else if streq [')'] tok then Token.RPAREN
  else Token.ID

/-- The continuation test of the second scanning loop of `readtoken`. -/
def issym (c : Char) : Bool := !isspace c && !isalpha c

/-- The C function `readtoken`: the returned token (`none` is `EOF`) and the
session afterwards.  The characters of the lexeme are stored in
`tok[0..len)`, and the terminator in `tok[len]` when the lexeme is followed
by a character; a store at an index that is not below `MAXTOK` sets
`overrun`. -/
def readtoken (p : Parser) : Option Token × Parser :=
  match p.fp.dropWhile isspace with
  | [] => (none, { p with fp := [] })
  | ch :: rest =>
      let run := if isalpha ch then isalpha else issym
      let lexeme := ch :: rest.takeWhile run
      match rest.dropWhile run with
      | [] =>
          (none,
           { p with tok := lexeme, fp := [],
                    overrun := p.overrun || decide (MAXTOK < lexeme.length) })
      | c :: after =>
          (some (classify lexeme),
           { p with tok := lexeme, fp := c :: after,
                    overrun := p.overrun || decide (MAXTOK ≤ lexeme.length) })

/-- The C function `accept`. -/
def accept (p : Parser) : Parser :=
  let r := readtoken p
  { r.2 with next := r.1 }

/-! ## Symbol table -/

/-- The loop of `find` from index `i` on, the list being `s[i..]`. -/
def findFrom (key : List Char) : List (List Char) → Nat → Nat → Option Nat
  | [], _, _ => none
  | s :: rest, i, n =>
      if i < n then
        (if streq key s then some i else findFrom key rest (i + 1) n)
      else none

/-- The C function `find`; `none` is the return value `-1`. -/
def find (key : List Char) (s : List (List Char)) (n : Nat) : Option Nat :=
  findFrom key s 0 n

/-! ## Tree destruction -/

/-- The C function `delete`: `true` when it returns, `false` when it
dereferences `NULL`. -/
def delete : Node → Bool
  | Node.null => false
  | Node.mk _ _ l r =>
      (if l ≠ Node.null then delete l else true) &&
      (if r ≠ Node.null then delete r else true)

/-! ## Parser -/

/-- The loop test `p->next == AND || p->next == OR` of `readexpr`, giving the
operator `type = p->next` when it holds. -/
def exprOp : Option Token → Option Token
  | some Token.AND => some Token.AND
  | some Token.OR => some Token.OR
  | _ => none

/-- The loop test `p->next == IF || p->next == IFF` of `readcond`, giving the
operator `type = p->next` when it holds. -/
def condOp : Option Token → Option Token
  | some Token.IF => some Token.IF
  | some Token.IFF => some Token.IFF
  | _ => none

mutual

/-- The C function `readterm`, with a recursion budget.  The store
`p->var[p->nvar] = s` of a new name sets `overrun` when `nvar` is not below
`MAXVARS`. -/
def readterm : Nat → Parser → Outcome (Node × Parser)
  | 0, _ => Outcome.timeout
  | fuel + 1, p =>
      match p.next with
      | some Token.ID =>
          match find p.tok p.var p.nvar with
          | none =>
              Outcome.done
                (mknode Token.ID p.nvar Node.null Node.null,
                 accept { p with var := p.var ++ [cstr p.tok],
                                 overrun := p.overrun || decide (MAXVARS ≤ p.nvar) })
          | some i =>
              Outcome.done (mknode Token.ID i Node.null Node.null, accept p)
      | some Token.NOT =>
          match readterm fuel (accept p) with
          | Outcome.done (t, p1) =>
              Outcome.done (mknode Token.NOT 0 t Node.null, p1)
          | Outcome.crash => Outcome.crash
          | Outcome.timeout => Outcome.timeout
      | some Token.LPAREN =>
          match readcond fuel (accept p) with
          | Outcome.done (t, p1) =>
              if p1.next ≠ some Token.RPAREN then
                (if delete t then Outcome.done (Node.null, p1)
                 else Outcome.crash)
              else Outcome.done (t, accept p1)
          | Outcome.crash => Outcome.crash
          | Outcome.timeout => Outcome.timeout
      | none => Outcome.done (Node.null, p)
      | some _ => Outcome.crash

/-- The `while` loop of `readexpr`, entered with the tree `e` built so far. -/
def readexprLoop : Nat → Parser → Node → Outcome (Node × Parser)
  | 0, _, _ => Outcome.timeout
  | fuel + 1, p, e =>
      match exprOp p.next with
      | some type =>
          match readterm fuel (accept p) with
          | Outcome.done (Node.null, p1) =>
              if delete e then Outcome.done (Node.null, p1)
              else Outcome.crash
          | Outcome.done (f, p1) => readexprLoop fuel p1 (mknode type 0 e f)
          | Outcome.crash => Outcome.crash
          | Outcome.timeout => Outcome.timeout
      | none => Outcome.done (e, p)

/-- The C function `readexpr`, with a recursion budget. -/
def readexpr : Nat → Parser → Outcome (Node × Parser)
  | 0, _ => Outcome.timeout
  | fuel + 1, p =>
      match readterm fuel p with
      | Outcome.done (Node.null, p1) => Outcome.done (Node.null, p1)
      | Outcome.done (e, p1) => readexprLoop fuel p1 e
      | Outcome.crash => Outcome.crash
      | Outcome.timeout => Outcome.timeout

/-- The `while` loop of `readcond`, entered with the tree `e` built so far. -/
def readcondLoop : Nat → Parser → Node → Outcome (Node × Parser)
  | 0, _, _ => Outcome.timeout
  | fuel + 1, p, e =>
      match condOp p.next with
      | some type =>
          match readexpr fuel (accept p) with
          | Outcome.done (Node.null, p1) =>
              if delete e then Outcome.done (Node.null, p1)
              else Outcome.crash
          | Outcome.done (f, p1) => readcondLoop fuel p1 (mknode type 0 e f)
          | Outcome.crash => Outcome.crash
          | Outcome.timeout => Outcome.timeout
      | none => Outcome.done (e, p)

/-- The C function `readcond`, with a recursion budget. -/
def readcond : Nat → Parser → Outcome (Node × Parser)
  | 0, _ => Outcome.timeout
  | fuel + 1, p =>
      match readexpr fuel p with
      | Outcome.done (Node.null, p1) => Outcome.done (Node.null, p1)
      | Outcome.done (e, p1) => readcondLoop fuel p1 e
      | Outcome.crash => Outcome.crash
      | Outcome.timeout => Outcome.timeout

end

/-- The C function `mkparser` on the input stream `fp`. -/
def mkparser (fp : List Char) : Parser :=
  accept { var := [], tok := [], fp := fp, next := none }

/-! ## The program -/

/-- The reading loop of `main`:
`for (nexpr = 0; (e = readcond(p)) != NULL; ++nexpr) expr[nexpr] = e;`
with the formulas read so far in `expr`.  The array `expr[MAXEXPR]` is a
list here; the run stays inside the array when the list returned has at
most `MAXEXPR` elements. -/
def readall : Nat → Parser → List Node → Outcome (List Node × Parser)
  | 0, _, _ => Outcome.timeout
  | fuel + 1, p, expr =>
      match readcond fuel p with
      | Outcome.done (Node.null, p1) => Outcome.done (expr, p1)
      | Outcome.done (e, p1) => readall fuel p1 (expr ++ [e])
      | Outcome.crash => Outcome.crash
      | Outcome.timeout => Outcome.timeout

/-- The final loop of `main`, `delete(expr[i])` for every formula. -/
def deleteall : List Node → Bool
  | [] => true
  | e :: rest => delete e && deleteall rest

/-- Exit status of the process. -/
inductive Exit where
  | EXIT_SUCCESS : Exit
  | EXIT_FAILURE : Exit
  deriving DecidableEq

/-- Lines 420-437 of `main`: the validity loops, the destruction of the
formulas and the exit status, for the formulas `expr[0..nexpr)` and the
number `nvar` of variables. -/
def verdict (expr : List Node) (nvar : Nat) : Outcome Exit :=
  match validity expr nvar with
  | some valid =>
      if deleteall expr then
        Outcome.done (if valid then Exit.EXIT_SUCCESS else Exit.EXIT_FAILURE)
      else Outcome.crash
  | none => Outcome.crash

/-- The C function `main` on the standard input `input`, with a recursion
budget for the reading phase. -/
def mainWith (fuel : Nat) (input : List Char) : Outcome Exit :=
  match readall fuel (mkparser input) [] with
  | Outcome.done (expr, p) => verdict expr p.nvar
  | Outcome.crash => Outcome.crash
  | Outcome.timeout => Outcome.timeout

/-- A recursion budget that is enough for every parsing function on the
session `p`: three levels of calls for each remaining token. -/
def budget (p : Parser) : Nat := 3 * p.fp.length + 8

/-- One call of `readcond` on the session `p`. -/
def parse (p : Parser) : Outcome (Node × Parser) :=
  readcond (budget p) p

/-- The C function `main` on the standard input `input`. -/
def main (input : List Char) : Outcome Exit :=
  mainWith (budget (mkparser input)) input

/-! ## Pretty printer -/

/-- The C function `print`: the text written to `fp`, or `none` when the run
dereferences `NULL`, reads `var` outside `var[0..nvar)` or reaches
`assert(0)`. -/
def print (p : Parser) : Node → Option (List Char)
  | Node.null => none
  | Node.mk Token.AND _ l r =>
      match print p l, print p r with
      | some a, some b => some (['('] ++ a ++ " and ".toList ++ b ++ [')'])
      | _, _ => none
  | Node.mk Token.OR _ l r =>
      match print p l, print p r with
      | some a, some b => some (['('] ++ a ++ " or ".toList ++ b ++ [')'])
      | _, _ => none
  | Node.mk Token.NOT _ l _ =>
      match print p l with
      | some a => some (['~'] ++ a)
      | none => none
  | Node.mk Token.IF _ l r =>
      match print p l, print p r with
      | some a, some b => some (['('] ++ a ++ " -> ".toList ++ b ++ [')'])
      | _, _ => none
  | Node.mk Token.IFF _ l r =>
      match print p l, print p r with
      | some a, some b => some (['('] ++ a ++ " <-> ".toList ++ b ++ [')'])
      | _, _ => none
  | Node.mk Token.ID id _ _ => p.var.get? id
  | Node.mk Token.LPAREN _ _ _ => none
  | Node.mk Token.RPAREN _ _ _ => none

/-! ## Truth functions of the specification -/

/-- The C operator `!` on an `int`. -/
def lnot (a : Nat) : Nat := if a = 0 then 1 else 0

/-- The C operator `||` on two `int`s. -/
def lor (a b : Nat) : Nat := if a ≠ 0 ∨ b ≠ 0 then 1 else 0

/-- The C operator `&&` on two `int`s. -/
def land (a b : Nat) : Nat := if a ≠ 0 ∧ b ≠ 0 then 1 else 0

/-- The formula `e` is true under the assignment `a`: `eval(e, a)` returns a
non-zero value. -/
def Holds (e : Node) (a : Nat) : Prop := ∃ v, eval e a = some v ∧ v ≠ 0

/-! ## Auxiliary notions for the parsing session -/

/-- The session after the symbol-table update of `readterm` for an ID token
that `find` did not locate. -/
def intern (p : Parser) : Parser :=
  { p with var := p.var ++ [cstr p.tok],
           overrun := p.overrun || decide (MAXVARS ≤ p.nvar) }

/-- The round trip of the specification: the text `print` writes for `t`,
followed by a blank, is given to the session `p` as its input stream (the
symbol table is kept, the lookahead is read anew) and parsed by one call of
`readcond`.  `none` when `print` does not return. -/
def roundtrip (p : Parser) (t : Node) : Option (Outcome (Node × Parser)) :=
  match print p t with
  | some text => some (parse (accept { p with fp := text ++ [' '] }))
  | none => none

/-- Statement that one more unit of budget does not change the result of a
call that did not run out of budget. -/
def Stable (fuel : Nat) : Prop :=
  (∀ p, readterm fuel p ≠ Outcome.timeout → readterm (fuel + 1) p = readterm fuel p) ∧
  (∀ p e, readexprLoop fuel p e ≠ Outcome.timeout →
    readexprLoop (fuel + 1) p e = readexprLoop fuel p e) ∧
  (∀ p, readexpr fuel p ≠ Outcome.timeout → readexpr (fuel + 1) p = readexpr fuel p) ∧
  (∀ p e, readcondLoop fuel p e ≠ Outcome.timeout →
    readcondLoop (fuel + 1) p e = readcondLoop fuel p e) ∧
  (∀ p, readcond fuel p ≠ Outcome.timeout → readcond (fuel + 1) p = readcond fuel p)

/-- Upper bound on the number of tokens the session can still deliver: the
unread characters, plus one for a lookahead that is not `EOF`. -/
def pending (p : Parser) : Nat :=
  p.fp.length + (if p.next = none then 0 else 1)

/-- A call that returns a tree has consumed a token; a call that returns
`NULL` has not given tokens back; the budget was enough. -/
def Advances (p : Parser) : Outcome (Node × Parser) → Prop
  | Outcome.done (t, p1) =>
      pending p1 ≤ pending p ∧ (t ≠ Node.null → pending p1 < pending p)
  | Outcome.crash => True
  | Outcome.timeout => False

/-- A loop has not given tokens back, and the budget was enough. -/
def Keeps (p : Parser) : Outcome (Node × Parser) → Prop
  | Outcome.done (_, p1) => pending p1 ≤ pending p
  | Outcome.crash => True
  | Outcome.timeout => False

/-- Statement that a budget of three units for each pending token (plus a
constant) is enough for the five parsing functions. -/
def Enough (fuel : Nat) : Prop :=
  (∀ p, 3 * pending p + 1 ≤ fuel → Advances p (readterm fuel p)) ∧
  (∀ p e, 3 * pending p + 1 ≤ fuel → Keeps p (readexprLoop fuel p e)) ∧
  (∀ p, 3 * pending p + 2 ≤ fuel → Advances p (readexpr fuel p)) ∧
  (∀ p e, 3 * pending p + 1 ≤ fuel → Keeps p (readcondLoop fuel p e)) ∧
  (∀ p, 3 * pending p + 3 ≤ fuel → Advances p (readcond fuel p))

/-- The variable indices that occur in a tree: the `id` fields of its ID
nodes. -/
def vars : Node → List Nat
  | Node.null => []
  | Node.mk Token.ID id _ _ => [id]
  | Node.mk Token.AND _ l r => vars l ++ vars r
  | Node.mk Token.OR _ l r => vars l ++ vars r
  | Node.mk Token.NOT _ l r => vars l ++ vars r
  | Node.mk Token.IF _ l r => vars l ++ vars r
  | Node.mk Token.IFF _ l r => vars l ++ vars r
  | Node.mk Token.LPAREN _ l r => vars l ++ vars r
  | Node.mk Token.RPAREN _ l r => vars l ++ vars r

/-- The classification of a token text in the words of the specification:
`~` and `not` are NOT, `or` is OR, `<->` is IFF, `->` is IF, `(` is LPAREN,
`)` is RPAREN, anything else is ID. -/
def tokenOf (text : List Char) : Token :=
  if text = ['~'] ∨ text = ['n', 'o', 't'] then Token.NOT
  else if text = ['o', 'r'] then Token.OR
  else if text = ['<', '-', '>'] then Token.IFF
  else if text = ['-', '>'] then Token.IF
  else if text = ['('] then Token.LPAREN
  else if text = [')'] then Token.RPAREN
  else Token.ID

/-- The scanning test that `readtoken` applies after the first character
`ch` of a lexeme. -/
def runTest (ch : Char) : Char → Bool :=
  if isalpha ch then isalpha else issym

/-- The parsing function `f` returns the tree `t` on the session `p` and
leaves the session `p1`, for some recursion budget. -/
def Reads (f : Nat → Parser → Outcome (Node × Parser)) (p : Parser) (t : Node)
    (p1 : Parser) : Prop :=
  ∃ fuel, f fuel p = Outcome.done (t, p1)

/-- From the session `p` on, the tokens are a sequence `op1 e1 ... opk ek`:
each lookahead is an operator accepted by the loop test `opOf`, and after
it `f` reads the operand `e_i`, a tree, and leaves the session `p_i`. -/
def Chain (opOf : Option Token → Option Token)
    (f : Nat → Parser → Outcome (Node × Parser)) :
    Parser → List (Token × Node × Parser) → Prop
  | _, [] => True
  | p, (op, t, p1) :: rest =>
      opOf p.next = some op ∧ Reads f (accept p) t p1 ∧ t ≠ Node.null ∧
        Chain opOf f p1 rest

/-- The session after the last operand of a chain. -/
def lastState : Parser → List (Token × Node × Parser) → Parser
  | p, [] => p
  | _, (_, _, p1) :: rest => lastState p1 rest

/-- The left fold `(...((e0 op1 e1) op2 e2)... opk ek)`. -/
def foldTree (e0 : Node) (steps : List (Token × Node × Parser)) : Node :=
  steps.foldl (fun e s => mknode s.1 0 e s.2.1) e0

/-- The formula `~x0 or ~x1 or ... or ~xk` as `readcond` builds it: the left
fold of the negated variables of index `0` to `k`. -/
def orNots : Nat → Node
  | 0 => Node.mk Token.NOT 0 (Node.mk Token.ID 0 Node.null Node.null) Node.null
  | k + 1 =>
      Node.mk Token.OR 0 (orNots k)
        (Node.mk Token.NOT 0 (Node.mk Token.ID (k + 1) Node.null Node.null) Node.null)

/-- The input of one formula, the 32 distinct variables `a` to `z` and `A`
to `F`, each negated, joined by `or`. -/
def wideNots : List Char :=
  ("~a or ~b or ~c or ~d or ~e or ~f or ~g or ~h or ~i or ~j or ~k or ~l or ~m " ++
   "or ~n or ~o or ~p or ~q or ~r or ~s or ~t or ~u or ~v or ~w or ~x or ~y or ~z " ++
   "or ~A or ~B or ~C or ~D or ~E or ~F ").toList

theorem bit_cases (a : Nat) (h : a ≤ 1) : a = 0 ∨ a = 1 := by omega

theorem eval_wf (t : Node) (env : Nat) (h : WellFormed t) :
    ∃ v, eval t env = some v ∧ v ≤ 1 := by
  induction t with
  | null => simp [WellFormed] at h
  | mk ty id l r ihl ihr =>
    cases ty <;> simp only [WellFormed] at h
    · obtain ⟨a, ha, ha1⟩ := ihl h.1
      obtain ⟨b, hb, hb1⟩ := ihr h.2
      refine ⟨a ||| b, by simp [eval, ha, hb], ?_⟩
      rcases bit_cases a ha1 with rfl | rfl <;> rcases bit_cases b hb1 with rfl | rfl <;> decide
    · obtain ⟨a, ha, ha1⟩ := ihl h.1
      obtain ⟨b, hb, hb1⟩ := ihr h.2
      refine ⟨a ||| b, by simp [eval, ha, hb], ?_⟩
      rcases bit_cases a ha1 with rfl | rfl <;> rcases bit_cases b hb1 with rfl | rfl <;> decide
    · obtain ⟨a, ha, ha1⟩ := ihl h.1
      refine ⟨bnot32 a &&& 1, by simp [eval, ha], ?_⟩
      rw [Nat.and_one_is_mod]; omega
    · obtain ⟨a, ha, ha1⟩ := ihl h.1
      obtain ⟨b, hb, hb1⟩ := ihr h.2
      refine ⟨(bnot32 a ||| b) &&& 1, by simp [eval, ha, hb], ?_⟩
      rw [Nat.and_one_is_mod]; omega
    · obtain ⟨a, ha, ha1⟩ := ihl h.1
      obtain ⟨b, hb, hb1⟩ := ihr h.2
      refine ⟨(bnot32 a ||| b) &&& 1, by simp [eval, ha, hb], ?_⟩
      rw [Nat.and_one_is_mod]; omega
    · exact ⟨(env >>> id) &&& 1, by simp only [eval], by rw [Nat.and_one_is_mod]; omega⟩



theorem holds_iff {e : Node} {a v : Nat} (h : eval e a = some v) :
    Holds e a ↔ v ≠ 0 := by
  unfold Holds
  constructor
  · rintro ⟨w, hw, hw0⟩
    rw [h] at hw
    cases hw
    exact hw0
  · intro hv
    exact ⟨v, h, hv⟩

theorem shl1_eq (nvar : Nat) (h : nvar < 32) : shl1 nvar = 2 ^ nvar := by
  unfold shl1
  rw [Nat.one_shiftLeft]
  apply Nat.mod_eq_of_lt
  calc 2 ^ nvar < 2 ^ 32 := Nat.pow_lt_pow_right (by decide) h
    _ = 4294967296 := by norm_num

/-- One pass of the inner loop over premises followed by a conclusion stops
with `valid = 0` exactly when all premises hold and the conclusion fails. -/
theorem inner_spec (prem : List Node) (concl : Node) (a : Nat)
    (hp : ∀ e ∈ prem, WellFormed e) (hc : WellFormed concl) :
    ∃ r, inner (prem ++ [concl]) a = some r ∧
      (r = Pass.invalid ↔ (∀ e ∈ prem, Holds e a) ∧ ¬ Holds concl a) := by
  induction prem with
  | nil =>
    obtain ⟨v, hv, _⟩ := eval_wf concl a hc
    by_cases h0 : v = 0
    · refine ⟨Pass.invalid, by simp [inner, hv, h0], ?_⟩
      simp [holds_iff hv, h0]
    · refine ⟨Pass.next, by simp [inner, hv, h0], ?_⟩
      simp [holds_iff hv, h0]
  | cons p ps ih =>
    obtain ⟨v, hv, _⟩ := eval_wf p a (hp p (by simp))
    obtain ⟨r, hr, hiff⟩ := ih (fun e he => hp e (by simp [he]))
    by_cases h0 : v = 0
    · refine ⟨Pass.next, by simp [inner, hv, h0], ?_⟩
      simp [holds_iff hv, h0]
    · refine ⟨r, by simp [inner, hv, h0, hr], ?_⟩
      rw [hiff]
      simp [holds_iff hv, h0]

/-- The outer loop ends with `valid = 1` exactly when no pass stops it. -/
theorem outer_true_iff (expr : List Node) (i k : Nat) :
    outer expr i k = some true ↔ ∀ j, j < k → inner expr (i + j) = some Pass.next := by
  induction k generalizing i with
  | zero => simp [outer]
  | succ k ih =>
    rw [outer]
    constructor
    · intro h j hj
      cases hin : inner expr i with
      | none => simp [hin] at h
      | some r =>
        cases r with
        | invalid => simp [hin] at h
        | next =>
          simp only [hin] at h
          rcases Nat.eq_zero_or_pos j with rfl | hpos
          · simpa using hin
          · have := (ih (i + 1)).1 h (j - 1) (by omega)
            have e : i + 1 + (j - 1) = i + j := by omega
            rwa [e] at this
    · intro h
      have h0 := h 0 (by omega)
      simp only [Nat.add_zero] at h0
      simp only [h0]
      apply (ih (i + 1)).2
      intro j hj
      have := h (j + 1) (by omega)
      have e : i + (j + 1) = i + 1 + j := by omega
      rwa [e] at this

/-- The outer loop always ends with a verdict when every pass does. -/
theorem outer_total (expr : List Node) (i k : Nat)
    (h : ∀ a, ∃ r, inner expr a = some r) :
    outer expr i k = some true ∨ outer expr i k = some false := by
  induction k generalizing i with
  | zero => simp [outer]
  | succ k ih =>
    rw [outer]
    obtain ⟨r, hr⟩ := h i
    cases r with
    | invalid => simp [hr]
    | next => simpa [hr] using ih (i + 1)

/-- Characterisation of the verdict computed by the loops of `main`. -/
theorem validity_iff (prem : List Node) (concl : Node) (nvar : Nat)
    (hp : ∀ e ∈ prem, WellFormed e) (hc : WellFormed concl) (hn : nvar < 32) :
    validity (prem ++ [concl]) nvar = some true ↔
      ∀ a, a < 2 ^ nvar → (∀ e ∈ prem, Holds e a) → Holds concl a := by
  unfold validity
  rw [shl1_eq nvar hn, outer_true_iff]
  constructor
  · intro h a ha hprem
    have hin := h a ha
    rw [Nat.zero_add] at hin
    obtain ⟨r, hr, hiff⟩ := inner_spec prem concl a hp hc
    rw [hin] at hr
    cases hr
    by_contra hcon
    have := hiff.2 ⟨hprem, hcon⟩
    cases this
  · intro h a ha
    rw [Nat.zero_add]
    obtain ⟨r, hr, hiff⟩ := inner_spec prem concl a hp hc
    cases r with
    | next => exact hr
    | invalid =>
      obtain ⟨hprem, hcon⟩ := hiff.1 rfl
      exact absurd (h a ha hprem) hcon

theorem validity_total (prem : List Node) (concl : Node) (nvar : Nat)
    (hp : ∀ e ∈ prem, WellFormed e) (hc : WellFormed concl) :
    validity (prem ++ [concl]) nvar = some true ∨
      validity (prem ++ [concl]) nvar = some false := by
  unfold validity
  apply outer_total
  intro a
  obtain ⟨r, hr, _⟩ := inner_spec prem concl a hp hc
  exact ⟨r, hr⟩

theorem delete_ok (t : Node) (h : t ≠ Node.null) : delete t = true := by
  induction t with
  | null => exact absurd rfl h
  | mk ty id l r ihl ihr =>
    rw [delete]
    by_cases hl : l = Node.null <;> by_cases hr : r = Node.null <;>
      simp [hl, hr, ihl, ihr]

theorem wf_ne_null (t : Node) (h : WellFormed t) : t ≠ Node.null := by
  intro hc
  subst hc
  exact h

theorem deleteall_wf (es : List Node) (h : ∀ e ∈ es, WellFormed e) :
    deleteall es = true := by
  induction es with
  | nil => rfl
  | cons e rest ih =>
    rw [deleteall, delete_ok e (wf_ne_null e (h e (by simp))),
      ih (fun x hx => h x (by simp [hx]))]
    rfl

theorem verdict_of_validity (es : List Node) (nvar : Nat) (b : Bool)
    (h : ∀ e ∈ es, WellFormed e) (hv : validity es nvar = some b) :
    verdict es nvar =
      Outcome.done (if b then Exit.EXIT_SUCCESS else Exit.EXIT_FAILURE) := by
  unfold verdict
  rw [hv]
  simp [deleteall_wf es h]

/-- C1. Validity checker correctness: for premises `prem` and conclusion
`concl`, all well-formed, and `nvar < 32`, the loops of `main` end with
`valid = 1`, and `main` exits with success, if and only if every assignment
below `2^nvar` that makes all premises true makes the conclusion true;
otherwise they end with `valid = 0` and `main` exits with failure. -/
theorem validity_correct (prem : List Node) (concl : Node) (nvar : Nat)
    (hp : ∀ e ∈ prem, WellFormed e) (hc : WellFormed concl) (hn : nvar < 32) :
    ((validity (prem ++ [concl]) nvar = some true ∧
        verdict (prem ++ [concl]) nvar = Outcome.done Exit.EXIT_SUCCESS) ↔
      ∀ a, a < 2 ^ nvar → (∀ e ∈ prem, Holds e a) → Holds concl a) ∧
    (¬ (∀ a, a < 2 ^ nvar → (∀ e ∈ prem, Holds e a) → Holds concl a) →
      validity (prem ++ [concl]) nvar = some false ∧
        verdict (prem ++ [concl]) nvar = Outcome.done Exit.EXIT_FAILURE) := by
  have hwf : ∀ e ∈ prem ++ [concl], WellFormed e := by
    intro e he
    rcases List.mem_append.1 he with h | h
    · exact hp e h
    · rw [List.mem_singleton.1 h]
      exact hc
  have hiff := validity_iff prem concl nvar hp hc hn
  constructor
  · constructor
    · intro h
      exact hiff.1 h.1
    · intro h
      have hv := hiff.2 h
      exact ⟨hv, verdict_of_validity _ nvar true hwf hv⟩
  · intro h
    rcases validity_total prem concl nvar hp hc with h1 | h1
    · exact absurd (hiff.1 h1) h
    · exact ⟨h1, verdict_of_validity _ nvar false hwf h1⟩

/-- Witness of C1: premise `p`, conclusion `~p`, one variable; the argument
is judged invalid. -/
theorem validity_correct_witness :
    validity ([Node.mk Token.ID 0 Node.null Node.null] ++
        [Node.mk Token.NOT 0 (Node.mk Token.ID 0 Node.null Node.null) Node.null]) 1
        = some false ∧
    verdict ([Node.mk Token.ID 0 Node.null Node.null] ++
        [Node.mk Token.NOT 0 (Node.mk Token.ID 0 Node.null Node.null) Node.null]) 1
        = Outcome.done Exit.EXIT_FAILURE :=
  (validity_correct [Node.mk Token.ID 0 Node.null Node.null]
    (Node.mk Token.NOT 0 (Node.mk Token.ID 0 Node.null Node.null) Node.null) 1
    (by simp [WellFormed]) (by simp [WellFormed]) (by decide)).2
    (by
      intro h
      have h1 := h 1 (by decide) (by
        intro e he
        rw [List.mem_singleton.1 he]
        exact ⟨1, by decide, by decide⟩)
      obtain ⟨v, hv, hv0⟩ := h1
      have e : eval (Node.mk Token.NOT 0 (Node.mk Token.ID 0 Node.null Node.null)
          Node.null) 1 = some 0 := by decide
      rw [e] at hv
      cases hv
      exact hv0 rfl)

/-- C2. Evaluator semantics for VARIABLE, NOT, OR and IMPLIES: on
well-formed operands `eval` returns bit `i` of the assignment for a variable
of index `i < 32`, `!L` for NOT, `L || R` for OR and `!L || R` for IF, each
a value in `{0, 1}`. -/
theorem eval_semantics (x y : Node) (a i k : Nat)
    (hx : WellFormed x) (hy : WellFormed y) (hi : i < 32) :
    eval (Node.mk Token.ID i Node.null Node.null) a = some (a / 2 ^ i % 2) ∧
    ∃ vx vy, eval x a = some vx ∧ eval y a = some vy ∧
      eval (Node.mk Token.NOT k x Node.null) a = some (lnot vx) ∧
      eval (Node.mk Token.OR k x y) a = some (lor vx vy) ∧
      eval (Node.mk Token.IF k x y) a = some (lor (lnot vx) vy) ∧
      lnot vx ≤ 1 ∧ lor vx vy ≤ 1 ∧ lor (lnot vx) vy ≤ 1 := by
  have _ := hi
  constructor
  · simp only [eval]
    rw [Nat.and_one_is_mod, Nat.shiftRight_eq_div_pow]
  · obtain ⟨vx, hvx, hx1⟩ := eval_wf x a hx
    obtain ⟨vy, hvy, hy1⟩ := eval_wf y a hy
    refine ⟨vx, vy, hvx, hvy, ?_, ?_, ?_, ?_, ?_, ?_⟩
    · simp only [eval, hvx]
      rcases bit_cases vx hx1 with rfl | rfl <;> decide
    · simp only [eval, hvx, hvy]
      rcases bit_cases vx hx1 with rfl | rfl <;>
        rcases bit_cases vy hy1 with rfl | rfl <;> decide
    · simp only [eval, hvx, hvy]
      rcases bit_cases vx hx1 with rfl | rfl <;>
        rcases bit_cases vy hy1 with rfl | rfl <;> decide
    · rcases bit_cases vx hx1 with rfl | rfl <;> decide
    · rcases bit_cases vx hx1 with rfl | rfl <;>
        rcases bit_cases vy hy1 with rfl | rfl <;> decide
    · rcases bit_cases vx hx1 with rfl | rfl <;>
        rcases bit_cases vy hy1 with rfl | rfl <;> decide

/-- Witness of C2: operands `p` and `q` under the assignment `p = 1, q = 0`. -/
theorem eval_semantics_witness :
    eval (Node.mk Token.ID 1 Node.null Node.null) 1 = some (1 / 2 ^ 1 % 2) ∧
    ∃ vx vy, eval (Node.mk Token.ID 0 Node.null Node.null) 1 = some vx ∧
      eval (Node.mk Token.ID 1 Node.null Node.null) 1 = some vy ∧
      eval (Node.mk Token.NOT 0 (Node.mk Token.ID 0 Node.null Node.null) Node.null) 1
        = some (lnot vx) ∧
      eval (Node.mk Token.OR 0 (Node.mk Token.ID 0 Node.null Node.null)
        (Node.mk Token.ID 1 Node.null Node.null)) 1 = some (lor vx vy) ∧
      eval (Node.mk Token.IF 0 (Node.mk Token.ID 0 Node.null Node.null)
        (Node.mk Token.ID 1 Node.null Node.null)) 1 = some (lor (lnot vx) vy) ∧
      lnot vx ≤ 1 ∧ lor vx vy ≤ 1 ∧ lor (lnot vx) vy ≤ 1 :=
  eval_semantics (Node.mk Token.ID 0 Node.null Node.null)
    (Node.mk Token.ID 1 Node.null Node.null) 1 1 0
    (by simp [WellFormed]) (by simp [WellFormed]) (by decide)

/-- C3. On `AND(p, q)` under the assignment `p = 1, q = 0` the operands
evaluate to `1` and `0`, whose conjunction `1 && 0` is `0`, but `eval`
returns `1`: the AND case computes `L | R`. -/
theorem eval_and_is_or :
    eval (Node.mk Token.ID 0 Node.null Node.null) 1 = some 1 ∧
    eval (Node.mk Token.ID 1 Node.null Node.null) 1 = some 0 ∧
    land 1 0 = 0 ∧
    eval (Node.mk Token.AND 0 (Node.mk Token.ID 0 Node.null Node.null)
      (Node.mk Token.ID 1 Node.null Node.null)) 1 = some 1 := by
  decide

/-- C4. On `IFF(p, q)` under the assignment `p = 0, q = 1` the operands
evaluate to `0` and `1`, which differ, but `eval` returns `1`: the IFF case
computes `(~L | R) & 1`, the same as IF. -/
theorem eval_iff_is_if :
    eval (Node.mk Token.ID 0 Node.null Node.null) 2 = some 0 ∧
    eval (Node.mk Token.ID 1 Node.null Node.null) 2 = some 1 ∧
    eval (Node.mk Token.IFF 0 (Node.mk Token.ID 0 Node.null Node.null)
      (Node.mk Token.ID 1 Node.null Node.null)) 2 = some 1 ∧
    eval (Node.mk Token.IFF 0 (Node.mk Token.ID 0 Node.null Node.null)
      (Node.mk Token.ID 1 Node.null Node.null)) 2 =
    eval (Node.mk Token.IF 0 (Node.mk Token.ID 0 Node.null Node.null)
      (Node.mk Token.ID 1 Node.null Node.null)) 2 := by
  decide

/-- C5. Modus ponens is always judged valid: for well-formed `X`, `Y` and
`nvar < 32` the loops of `main` on the formulas `IF(X, Y)`, `X`, `Y` end
with `valid = 1` and `main` exits with success. -/
theorem modus_ponens_valid (X Y : Node) (nvar k : Nat)
    (hX : WellFormed X) (hY : WellFormed Y) (hn : nvar < 32) :
    validity [Node.mk Token.IF k X Y, X, Y] nvar = some true ∧
    verdict [Node.mk Token.IF k X Y, X, Y] nvar = Outcome.done Exit.EXIT_SUCCESS := by
  have hwf : ∀ e ∈ [Node.mk Token.IF k X Y, X], WellFormed e := by
    intro e he
    simp only [List.mem_cons, List.mem_singleton, List.not_mem_nil, or_false] at he
    rcases he with rfl | rfl
    · exact ⟨hX, hY⟩
    · exact hX
  have hall : ∀ e ∈ [Node.mk Token.IF k X Y, X, Y], WellFormed e := by
    intro e he
    simp only [List.mem_cons, List.mem_singleton, List.not_mem_nil, or_false] at he
    rcases he with rfl | rfl | rfl
    · exact ⟨hX, hY⟩
    · exact hX
    · exact hY
  have key := (validity_iff [Node.mk Token.IF k X Y, X] Y nvar hwf hY hn).2
  have hv : validity [Node.mk Token.IF k X Y, X, Y] nvar = some true := by
    apply key
    intro a _ hprem
    obtain ⟨vx, hvx, hx1⟩ := eval_wf X a hX
    obtain ⟨vy, hvy, hy1⟩ := eval_wf Y a hY
    have hif := hprem (Node.mk Token.IF k X Y) (by simp)
    have hx := hprem X (by simp)
    have eif : eval (Node.mk Token.IF k X Y) a = some ((bnot32 vx ||| vy) &&& 1) := by
      simp only [eval, hvx, hvy]
    rw [holds_iff eif] at hif
    rw [holds_iff hvx] at hx
    rw [holds_iff hvy]
    rcases bit_cases vx hx1 with rfl | rfl
    · exact absurd rfl hx
    · rcases bit_cases vy hy1 with rfl | rfl
      · exact absurd (by decide) hif
      · decide
  exact ⟨hv, verdict_of_validity _ nvar true hall hv⟩

/-- Witness of C5: the text `p -> q`, `p`, `q` is read as the formulas
`IF(p, q)`, `p`, `q` over two variables, and `main` exits with success. -/
theorem modus_ponens_valid_witness :
    readall (budget (mkparser "p -> q\np\nq\n".toList))
        (mkparser "p -> q\np\nq\n".toList) [] =
      Outcome.done
        ([Node.mk Token.IF 0 (Node.mk Token.ID 0 Node.null Node.null)
            (Node.mk Token.ID 1 Node.null Node.null),
          Node.mk Token.ID 0 Node.null Node.null,
          Node.mk Token.ID 1 Node.null Node.null],
         { var := [['p'], ['q']], tok := ['q'], fp := [], next := none }) ∧
    (validity
        [Node.mk Token.IF 0 (Node.mk Token.ID 0 Node.null Node.null)
            (Node.mk Token.ID 1 Node.null Node.null),
          Node.mk Token.ID 0 Node.null Node.null,
          Node.mk Token.ID 1 Node.null Node.null] 2 = some true ∧
      verdict
        [Node.mk Token.IF 0 (Node.mk Token.ID 0 Node.null Node.null)
            (Node.mk Token.ID 1 Node.null Node.null),
          Node.mk Token.ID 0 Node.null Node.null,
          Node.mk Token.ID 1 Node.null Node.null] 2 =
        Outcome.done Exit.EXIT_SUCCESS) ∧
    main "p -> q\np\nq\n".toList = Outcome.done Exit.EXIT_SUCCESS :=
  ⟨by decide,
   modus_ponens_valid (Node.mk Token.ID 0 Node.null Node.null)
     (Node.mk Token.ID 1 Node.null Node.null) 2 0
     (by simp [WellFormed]) (by simp [WellFormed]) (by decide),
   by decide⟩

/-- C6. Zero premises means tautology check: for a single well-formed
formula `c` and `nvar < 32` the loops of `main` end with `valid = 1`, and
`main` exits with success, if and only if `c` is true under every
assignment below `2^nvar`; and for every well-formed `X` the single formula
`OR(X, NOT(X))` is judged valid. -/
theorem tautology_check (c X : Node) (nvar k : Nat)
    (hc : WellFormed c) (hX : WellFormed X) (hn : nvar < 32) :
    ((validity [c] nvar = some true ∧
        verdict [c] nvar = Outcome.done Exit.EXIT_SUCCESS) ↔
      ∀ a, a < 2 ^ nvar → Holds c a) ∧
    (validity [Node.mk Token.OR k X (Node.mk Token.NOT k X Node.null)] nvar
        = some true ∧
      verdict [Node.mk Token.OR k X (Node.mk Token.NOT k X Node.null)] nvar
        = Outcome.done Exit.EXIT_SUCCESS) := by
  have h1 : ∀ d : Node, WellFormed d →
      (validity [d] nvar = some true ↔ ∀ a, a < 2 ^ nvar → Holds d a) := by
    intro d hd
    have := validity_iff [] d nvar (by simp) hd hn
    simpa using this
  have h2 : ∀ d : Node, WellFormed d → validity [d] nvar = some true →
      verdict [d] nvar = Outcome.done Exit.EXIT_SUCCESS := by
    intro d hd hv
    exact verdict_of_validity [d] nvar true
      (fun e he => by rw [List.mem_singleton.1 he]; exact hd) hv
  have hwf : WellFormed (Node.mk Token.OR k X (Node.mk Token.NOT k X Node.null)) :=
    ⟨hX, hX, rfl⟩
  have hor : validity [Node.mk Token.OR k X (Node.mk Token.NOT k X Node.null)] nvar
      = some true := by
    rw [h1 _ hwf]
    intro a _
    obtain ⟨vx, hvx, hx1⟩ := eval_wf X a hX
    have e : eval (Node.mk Token.OR k X (Node.mk Token.NOT k X Node.null)) a
        = some (vx ||| (bnot32 vx &&& 1)) := by
      simp only [eval, hvx]
    rw [holds_iff e]
    rcases bit_cases vx hx1 with rfl | rfl <;> decide
  refine ⟨⟨fun h => (h1 c hc).1 h.1, fun h => ?_⟩, hor, h2 _ hwf hor⟩
  have hv := (h1 c hc).2 h
  exact ⟨hv, h2 c hc hv⟩

/-- Witness of C6: the text `p or ~p` is read as `OR(p, NOT(p))` and `main`
exits with success. -/
theorem tautology_check_witness :
    parse (mkparser "p or ~p ".toList) =
      Outcome.done
        (Node.mk Token.OR 0 (Node.mk Token.ID 0 Node.null Node.null)
          (Node.mk Token.NOT 0 (Node.mk Token.ID 0 Node.null Node.null) Node.null),
         { var := [['p']], tok := ['p'], fp := [], next := none }) ∧
    (validity [Node.mk Token.OR 0 (Node.mk Token.ID 0 Node.null Node.null)
          (Node.mk Token.NOT 0 (Node.mk Token.ID 0 Node.null Node.null) Node.null)] 1
        = some true ∧
      verdict [Node.mk Token.OR 0 (Node.mk Token.ID 0 Node.null Node.null)
          (Node.mk Token.NOT 0 (Node.mk Token.ID 0 Node.null Node.null) Node.null)] 1
        = Outcome.done Exit.EXIT_SUCCESS) ∧
    main "p or ~p ".toList = Outcome.done Exit.EXIT_SUCCESS :=
  ⟨by decide,
   (tautology_check (Node.mk Token.ID 0 Node.null Node.null)
     (Node.mk Token.ID 0 Node.null Node.null) 1 0
     (by simp [WellFormed]) (by simp [WellFormed]) (by decide)).2,
   by decide⟩

theorem inner_next_insert (P : List Node) (q c : Node) (a : Nat)
    (hq : WellFormed q) (h : inner (P ++ [c]) a = some Pass.next) :
    inner (P ++ [q] ++ [c]) a = some Pass.next := by
  induction P with
  | nil =>
    obtain ⟨w, hw, _⟩ := eval_wf q a hq
    simp only [List.nil_append, List.singleton_append] at h ⊢
    by_cases hw0 : w = 0
    · simp [inner, hw, hw0]
    · simpa [inner, hw, hw0] using h
  | cons p ps ih =>
    simp only [List.cons_append, inner] at h ⊢
    cases hp : eval p a with
    | none => simp [hp] at h
    | some v =>
      simp only [hp] at h ⊢
      by_cases hv0 : v = 0
      · simp [hv0]
      · simp only [hv0, if_false] at h ⊢
        simpa using ih h

/-- C7, as amended. Adding a well-formed premise `q` never turns a valid
argument into an invalid one: if the loops of `main` end with `valid = 1` on
the premises `P` and conclusion `c`, they do so on the premises `P`, `q` and
conclusion `c`. -/
theorem add_premise_keeps_valid (P : List Node) (q c : Node) (nvar : Nat)
    (hq : WellFormed q) (h : validity (P ++ [c]) nvar = some true) :
    validity (P ++ [q] ++ [c]) nvar = some true := by
  unfold validity at h ⊢
  rw [outer_true_iff] at h ⊢
  intro j hj
  exact inner_next_insert P q c _ hq (h j hj)

/-- Witness of C7 as amended: `p` is valid with the premise `p`, and stays
valid with the extra premise `q`. -/
theorem add_premise_keeps_valid_witness :
    WellFormed (Node.mk Token.ID 1 Node.null Node.null) ∧
    validity ([Node.mk Token.ID 0 Node.null Node.null] ++
      [Node.mk Token.ID 0 Node.null Node.null]) 2 = some true ∧
    validity ([Node.mk Token.ID 0 Node.null Node.null] ++
      [Node.mk Token.ID 1 Node.null Node.null] ++
      [Node.mk Token.ID 0 Node.null Node.null]) 2 = some true :=
  ⟨by simp [WellFormed], by decide,
   add_premise_keeps_valid [Node.mk Token.ID 0 Node.null Node.null]
    (Node.mk Token.ID 1 Node.null Node.null)
    (Node.mk Token.ID 0 Node.null Node.null) 2
    (by simp [WellFormed]) (by decide)⟩

/-- C7, counterexample to the claim as stated. With no premise the
conclusion `p` over one variable is judged invalid, and with the added
premise `p` the argument is judged valid: an added premise turned an
invalid argument into a valid one. -/
theorem add_premise_invalid_to_valid :
    WellFormed (Node.mk Token.ID 0 Node.null Node.null) ∧
    validity ([] ++ [Node.mk Token.ID 0 Node.null Node.null]) 1 = some false ∧
    validity ([] ++ [Node.mk Token.ID 0 Node.null Node.null] ++
      [Node.mk Token.ID 0 Node.null Node.null]) 1 = some true := by
  refine ⟨by simp [WellFormed], by decide, by decide⟩

/-! ## Parsing session: lemmas and theorems -/

/-- C9. On the text `A or B and C` the first call of `readcond` returns
`OR(A, B)` with only `A` and `B` interned and the word `and` as an ID
lookahead: `readtoken` has no case for `and`.  The reading loop then takes
`and` and `C` as two more formulas, the variables of index 2 and 3. -/
theorem and_word_is_variable :
    parse (mkparser "A or B and C ".toList) =
      Outcome.done
        (Node.mk Token.OR 0 (Node.mk Token.ID 0 Node.null Node.null)
          (Node.mk Token.ID 1 Node.null Node.null),
         { var := [['A'], ['B']], tok := ['a', 'n', 'd'], fp := [' ', 'C', ' '],
           next := some Token.ID }) ∧
    readall (budget (mkparser "A or B and C ".toList))
        (mkparser "A or B and C ".toList) [] =
      Outcome.done
        ([Node.mk Token.OR 0 (Node.mk Token.ID 0 Node.null Node.null)
            (Node.mk Token.ID 1 Node.null Node.null),
          Node.mk Token.ID 2 Node.null Node.null,
          Node.mk Token.ID 3 Node.null Node.null],
         { var := [['A'], ['B'], ['a', 'n', 'd'], ['C']], tok := ['C'], fp := [],
           next := none }) := by
  decide

/-- C10. The tree `NOT(OR(p, q))` is returned by `readcond` on the text
`~ (p or q)`; `print` writes it as `~(p or q)`; parsing that text with the
same symbol table returns a variable node of the new name `~(`, which is
false under the assignment `0` where the original tree is true.  Likewise
`IF(OR(p, q), r)` is written as `((p or q) -> r)` and read back as a
variable of the new name `((`. -/
theorem roundtrip_changes_tree :
    parse (mkparser "~ (p or q) ".toList) =
      Outcome.done
        (Node.mk Token.NOT 0
          (Node.mk Token.OR 0 (Node.mk Token.ID 0 Node.null Node.null)
            (Node.mk Token.ID 1 Node.null Node.null)) Node.null,
         { var := [['p'], ['q']], tok := [')'], fp := [], next := none }) ∧
    print { var := [['p'], ['q']], tok := [')'], fp := [], next := none }
        (Node.mk Token.NOT 0
          (Node.mk Token.OR 0 (Node.mk Token.ID 0 Node.null Node.null)
            (Node.mk Token.ID 1 Node.null Node.null)) Node.null) =
      some "~(p or q)".toList ∧
    roundtrip { var := [['p'], ['q']], tok := [')'], fp := [], next := none }
        (Node.mk Token.NOT 0
          (Node.mk Token.OR 0 (Node.mk Token.ID 0 Node.null Node.null)
            (Node.mk Token.ID 1 Node.null Node.null)) Node.null) =
      some (Outcome.done
        (Node.mk Token.ID 2 Node.null Node.null,
         { var := [['p'], ['q'], ['~', '(']], tok := ['p'],
           fp := " or q) ".toList, next := some Token.ID })) ∧
    eval (Node.mk Token.NOT 0
          (Node.mk Token.OR 0 (Node.mk Token.ID 0 Node.null Node.null)
            (Node.mk Token.ID 1 Node.null Node.null)) Node.null) 0 = some 1 ∧
    eval (Node.mk Token.ID 2 Node.null Node.null) 0 = some 0 ∧
    parse (mkparser "(p or q) -> r ".toList) =
      Outcome.done
        (Node.mk Token.IF 0
          (Node.mk Token.OR 0 (Node.mk Token.ID 0 Node.null Node.null)
            (Node.mk Token.ID 1 Node.null Node.null))
          (Node.mk Token.ID 2 Node.null Node.null),
         { var := [['p'], ['q'], ['r']], tok := ['r'], fp := [], next := none }) ∧
    print { var := [['p'], ['q'], ['r']], tok := ['r'], fp := [], next := none }
        (Node.mk Token.IF 0
          (Node.mk Token.OR 0 (Node.mk Token.ID 0 Node.null Node.null)
            (Node.mk Token.ID 1 Node.null Node.null))
          (Node.mk Token.ID 2 Node.null Node.null)) =
      some "((p or q) -> r)".toList ∧
    roundtrip { var := [['p'], ['q'], ['r']], tok := ['r'], fp := [], next := none }
        (Node.mk Token.IF 0
          (Node.mk Token.OR 0 (Node.mk Token.ID 0 Node.null Node.null)
            (Node.mk Token.ID 1 Node.null Node.null))
          (Node.mk Token.ID 2 Node.null Node.null)) =
      some (Outcome.done
        (Node.mk Token.ID 3 Node.null Node.null,
         { var := [['p'], ['q'], ['r'], ['(', '(']], tok := ['p'],
           fp := " or q) -> r) ".toList, next := some Token.ID })) ∧
    eval (Node.mk Token.IF 0
          (Node.mk Token.OR 0 (Node.mk Token.ID 0 Node.null Node.null)
            (Node.mk Token.ID 1 Node.null Node.null))
          (Node.mk Token.ID 2 Node.null Node.null)) 0 = some 1 ∧
    eval (Node.mk Token.ID 3 Node.null Node.null) 0 = some 0 := by
  decide

theorem stable_all : ∀ fuel, Stable fuel := by
  intro fuel
  induction fuel with
  | zero =>
    refine ⟨?_, ?_, ?_, ?_, ?_⟩
    · intro p h; exact absurd (readterm.eq_1 p) h
    · intro p e h; exact absurd (readexprLoop.eq_1 p e) h
    · intro p h; exact absurd (readexpr.eq_1 p) h
    · intro p e h; exact absurd (readcondLoop.eq_1 p e) h
    · intro p h; exact absurd (readcond.eq_1 p) h
  | succ fuel ih =>
    obtain ⟨hterm, heloop, hexpr, hcloop, hcond⟩ := ih
    refine ⟨?_, ?_, ?_, ?_, ?_⟩
    · intro p h
      rw [readterm.eq_2 p (fuel + 1)]
      rw [readterm.eq_2 p fuel] at h ⊢
      split
      · rfl
      · have hne : readterm fuel (accept p) ≠ Outcome.timeout := by
          intro hc
          simp_all
        rw [hterm _ hne]
      · have hne : readcond fuel (accept p) ≠ Outcome.timeout := by
          intro hc
          simp_all
        rw [hcond _ hne]
      · rfl
      · rfl
    · intro p e h
      rw [readexprLoop.eq_2 p e (fuel + 1)]
      rw [readexprLoop.eq_2 p e fuel] at h ⊢
      split
      · rename_i hop
        have hne : readterm fuel (accept p) ≠ Outcome.timeout := by
          intro hc
          simp_all
        rw [hterm _ hne]
        split
        · rfl
        · rename_i hr
          simp only [hr, hop] at h
          exact heloop _ _ h
        · rfl
        · rfl
      · rfl
    · intro p h
      rw [readexpr.eq_2 p (fuel + 1)]
      rw [readexpr.eq_2 p fuel] at h ⊢
      have hne : readterm fuel p ≠ Outcome.timeout := by
        intro hc
        simp_all
      rw [hterm _ hne]
      split
      · rfl
      · rename_i hr
        simp only [hr] at h
        exact heloop _ _ h
      · rfl
      · rfl
    · intro p e h
      rw [readcondLoop.eq_2 p e (fuel + 1)]
      rw [readcondLoop.eq_2 p e fuel] at h ⊢
      split
      · rename_i hop
        have hne : readexpr fuel (accept p) ≠ Outcome.timeout := by
          intro hc
          simp_all
        rw [hexpr _ hne]
        split
        · rfl
        · rename_i hr
          simp only [hr, hop] at h
          exact hcloop _ _ h
        · rfl
        · rfl
      · rfl
    · intro p h
      rw [readcond.eq_2 p (fuel + 1)]
      rw [readcond.eq_2 p fuel] at h ⊢
      have hne : readexpr fuel p ≠ Outcome.timeout := by
        intro hc
        simp_all
      rw [hexpr _ hne]
      split
      · rfl
      · rename_i hr
        simp only [hr] at h
        exact hcloop _ _ h
      · rfl
      · rfl

theorem readcond_mono (fuel k : Nat) (p : Parser)
    (h : readcond fuel p ≠ Outcome.timeout) :
    readcond (fuel + k) p = readcond fuel p := by
  induction k with
  | zero => rfl
  | succ k ih =>
    have := (stable_all (fuel + k)).2.2.2.2 p (by rw [ih]; exact h)
    rw [← Nat.add_assoc, this, ih]

theorem pending_accept (p : Parser) : pending (accept p) ≤ p.fp.length := by
  unfold pending accept readtoken
  have h1 : (p.fp.dropWhile isspace).length ≤ p.fp.length :=
    (List.dropWhile_sublist isspace).length_le
  split
  · simp
  · rename_i ch rest heq
    rw [heq] at h1
    dsimp only
    split
    · simp
    · rename_i c after heq2
      have h2 : (rest.dropWhile (if isalpha ch = true then isalpha else issym)).length
          ≤ rest.length := (List.dropWhile_sublist _).length_le
      rw [heq2] at h2
      simp at h1 h2 ⊢
      omega

theorem pending_accept_lt (p : Parser) (h : p.next ≠ none) :
    pending (accept p) < pending p := by
  have := pending_accept p
  have e : pending p = p.fp.length + 1 := by simp [pending, h]
  omega

theorem pending_accept_intern (p : Parser) (h : p.next ≠ none) :
    pending (accept (intern p)) < pending p := by
  have := pending_accept (intern p)
  have e : pending p = p.fp.length + 1 := by simp [pending, h]
  have e2 : (intern p).fp = p.fp := rfl
  rw [e2] at this
  omega

theorem exprOp_some {o : Option Token} {ty : Token} (h : exprOp o = some ty) :
    o ≠ none := by
  intro hc
  subst hc
  simp [exprOp] at h

theorem condOp_some {o : Option Token} {ty : Token} (h : condOp o = some ty) :
    o ≠ none := by
  intro hc
  subst hc
  simp [condOp] at h

theorem enough_all : ∀ fuel, Enough fuel := by
  intro fuel
  induction fuel with
  | zero =>
    refine ⟨?_, ?_, ?_, ?_, ?_⟩ <;> intros <;> omega
  | succ fuel ih =>
    obtain ⟨hterm, heloop, hexpr, hcloop, hcond⟩ := ih
    refine ⟨?_, ?_, ?_, ?_, ?_⟩
    · intro p hf
      rw [readterm]
      split
      · rename_i hid
        have hn : p.next ≠ none := by simp [hid]
        split
        · have := pending_accept_intern p hn
          exact ⟨Nat.le_of_lt this, fun _ => this⟩
        · have := pending_accept_lt p hn
          exact ⟨Nat.le_of_lt this, fun _ => this⟩
      · rename_i hid
        have hn : p.next ≠ none := by simp [hid]
        have hlt := pending_accept_lt p hn
        have ih1 := hterm (accept p) (by omega)
        revert ih1
        cases readterm fuel (accept p) with
        | done a =>
          obtain ⟨t, p1⟩ := a
          intro ih1
          exact ⟨by have := ih1.1; omega, fun _ => by have := ih1.1; omega⟩
        | crash => intro _; trivial
        | timeout => intro ih1; exact ih1
      · rename_i hid
        have hn : p.next ≠ none := by simp [hid]
        have hlt := pending_accept_lt p hn
        have ih1 := hcond (accept p) (by omega)
        revert ih1
        cases readcond fuel (accept p) with
        | done a =>
          obtain ⟨t, p1⟩ := a
          intro ih1
          dsimp only
          split
          · split
            · exact ⟨by have := ih1.1; omega, fun h => absurd rfl h⟩
            · trivial
          · rename_i hrp
            have hn1 : p1.next ≠ none := by
              intro hc
              rw [hc] at hrp
              simp at hrp
            have := pending_accept_lt p1 hn1
            exact ⟨by have := ih1.1; omega, fun _ => by have := ih1.1; omega⟩
        | crash => intro _; trivial
        | timeout => intro ih1; exact ih1
      · exact ⟨Nat.le_refl _, fun h => absurd rfl h⟩
      · trivial
    · intro p e hf
      rw [readexprLoop]
      split
      · rename_i ty hop
        have hlt := pending_accept_lt p (exprOp_some hop)
        have ih1 := hterm (accept p) (by omega)
        revert ih1
        cases hr : readterm fuel (accept p) with
        | done a =>
          obtain ⟨f, p1⟩ := a
          intro ih1
          cases f with
          | null =>
            dsimp only
            split
            · exact (by have := ih1.1; show pending p1 ≤ pending p; omega)
            · trivial
          | mk ty1 id1 l1 r1 =>
            dsimp only
            have ih2 := heloop p1 (mknode ty 0 e (Node.mk ty1 id1 l1 r1))
              (by have := ih1.1; omega)
            revert ih2
            cases readexprLoop fuel p1 (mknode ty 0 e (Node.mk ty1 id1 l1 r1)) with
            | done b =>
              obtain ⟨t2, p2⟩ := b
              intro ih2
              show pending p2 ≤ pending p
              have h2 : pending p2 ≤ pending p1 := ih2
              have := ih1.1
              omega
            | crash => intro _; trivial
            | timeout => intro ih2; exact ih2
        | crash => intro _; trivial
        | timeout => intro ih1; exact ih1
      · exact Nat.le_refl _
    · intro p hf
      rw [readexpr]
      have ih1 := hterm p (by omega)
      revert ih1
      cases hr : readterm fuel p with
      | done a =>
        obtain ⟨e, p1⟩ := a
        intro ih1
        cases e with
        | null =>
          dsimp only
          exact ⟨ih1.1, fun h => absurd rfl h⟩
        | mk ty1 id1 l1 r1 =>
          dsimp only
          have hlt : pending p1 < pending p := ih1.2 (by simp)
          have ih2 := heloop p1 (Node.mk ty1 id1 l1 r1) (by omega)
          revert ih2
          cases readexprLoop fuel p1 (Node.mk ty1 id1 l1 r1) with
          | done b =>
            obtain ⟨t2, p2⟩ := b
            intro ih2
            have h2 : pending p2 ≤ pending p1 := ih2
            exact ⟨by omega, fun _ => by omega⟩
          | crash => intro _; trivial
          | timeout => intro ih2; exact ih2
      | crash => intro _; trivial
      | timeout => intro ih1; exact ih1
    · intro p e hf
      rw [readcondLoop]
      split
      · rename_i ty hop
        have hlt := pending_accept_lt p (condOp_some hop)
        have ih1 := hexpr (accept p) (by omega)
        revert ih1
        cases hr : readexpr fuel (accept p) with
        | done a =>
          obtain ⟨f, p1⟩ := a
          intro ih1
          cases f with
          | null =>
            dsimp only
            split
            · exact (by have := ih1.1; show pending p1 ≤ pending p; omega)
            · trivial
          | mk ty1 id1 l1 r1 =>
            dsimp only
            have ih2 := hcloop p1 (mknode ty 0 e (Node.mk ty1 id1 l1 r1))
              (by have := ih1.1; omega)
            revert ih2
            cases readcondLoop fuel p1 (mknode ty 0 e (Node.mk ty1 id1 l1 r1)) with
            | done b =>
              obtain ⟨t2, p2⟩ := b
              intro ih2
              show pending p2 ≤ pending p
              have h2 : pending p2 ≤ pending p1 := ih2
              have := ih1.1
              omega
            | crash => intro _; trivial
            | timeout => intro ih2; exact ih2
        | crash => intro _; trivial
        | timeout => intro ih1; exact ih1
      · exact Nat.le_refl _
    · intro p hf
      rw [readcond]
      have ih1 := hexpr p (by omega)
      revert ih1
      cases hr : readexpr fuel p with
      | done a =>
        obtain ⟨e, p1⟩ := a
        intro ih1
        cases e with
        | null =>
          dsimp only
          exact ⟨ih1.1, fun h => absurd rfl h⟩
        | mk ty1 id1 l1 r1 =>
          dsimp only
          have hlt : pending p1 < pending p := ih1.2 (by simp)
          have ih2 := hcloop p1 (Node.mk ty1 id1 l1 r1) (by omega)
          revert ih2
          cases readcondLoop fuel p1 (Node.mk ty1 id1 l1 r1) with
          | done b =>
            obtain ⟨t2, p2⟩ := b
            intro ih2
            have h2 : pending p2 ≤ pending p1 := ih2
            exact ⟨by omega, fun _ => by omega⟩
          | crash => intro _; trivial
          | timeout => intro ih2; exact ih2
      | crash => intro _; trivial
      | timeout => intro ih1; exact ih1

/-- With the budget of `parse`, `readcond` does not run out of budget. -/
theorem parse_advances (p : Parser) : Advances p (parse p) := by
  unfold parse
  apply (enough_all (budget p)).2.2.2.2 p
  unfold budget pending
  split <;> omega

/-- The result of `parse` is the result of `readcond` for every budget that
is at least the one `parse` uses. -/
theorem readcond_budget (p : Parser) (fuel : Nat) (h : budget p ≤ fuel) :
    readcond fuel p = parse p := by
  have hne : readcond (budget p) p ≠ Outcome.timeout := by
    have := parse_advances p
    unfold parse at this
    intro hc
    rw [hc] at this
    exact this
  have := readcond_mono (budget p) (fuel - budget p) p hne
  rw [Nat.add_sub_cancel' h] at this
  exact this

theorem readall_stable (fuel : Nat) :
    ∀ p acc, readall fuel p acc ≠ Outcome.timeout →
      readall (fuel + 1) p acc = readall fuel p acc := by
  induction fuel with
  | zero => intro p acc h; exact absurd (readall.eq_1 p acc) h
  | succ fuel ih =>
    intro p acc h
    rw [readall.eq_2 p acc (fuel + 1)]
    rw [readall.eq_2 p acc fuel] at h ⊢
    have hne : readcond fuel p ≠ Outcome.timeout := by
      intro hc
      simp_all
    rw [(stable_all fuel).2.2.2.2 p hne]
    split
    · rfl
    · rename_i hr
      simp only [hr] at h
      exact ih _ _ h
    · rfl
    · rfl

theorem readall_mono (fuel k : Nat) (p : Parser) (acc : List Node)
    (h : readall fuel p acc ≠ Outcome.timeout) :
    readall (fuel + k) p acc = readall fuel p acc := by
  induction k with
  | zero => rfl
  | succ k ih =>
    have := readall_stable (fuel + k) p acc (by rw [ih]; exact h)
    rw [← Nat.add_assoc, this, ih]

theorem readall_enough (fuel : Nat) :
    ∀ p acc, 3 * pending p + 4 ≤ fuel → readall fuel p acc ≠ Outcome.timeout := by
  induction fuel with
  | zero => intro p acc h; omega
  | succ fuel ih =>
    intro p acc hf
    rw [readall]
    have ih1 := (enough_all fuel).2.2.2.2 p (by omega)
    revert ih1
    cases hr : readcond fuel p with
    | done a =>
      obtain ⟨e, p1⟩ := a
      intro ih1
      cases e with
      | null => simp
      | mk ty1 id1 l1 r1 =>
        dsimp only
        have hlt : pending p1 < pending p := ih1.2 (by simp)
        exact ih p1 _ (by omega)
    | crash => intro _; simp
    | timeout => intro ih1; exact absurd ih1 id

theorem budget_enough (p : Parser) : 3 * pending p + 4 ≤ budget p := by
  unfold budget pending
  split <;> omega

/-- The program always ends: `main` exits with a status or crashes, it does
not run out of budget. -/
theorem main_ne_timeout (input : List Char) : main input ≠ Outcome.timeout := by
  unfold main mainWith
  have h := readall_enough (budget (mkparser input)) (mkparser input) []
    (budget_enough _)
  revert h
  cases readall (budget (mkparser input)) (mkparser input) [] with
  | done a =>
    obtain ⟨expr, p⟩ := a
    intro _
    dsimp only
    unfold verdict
    split
    · split <;> simp
    · simp
  | crash => intro _; simp
  | timeout => intro h; exact absurd rfl h

/-- The result of `main` is the one of `mainWith` for every budget that is at
least the one `main` uses. -/
theorem mainWith_budget (input : List Char) (fuel : Nat)
    (h : budget (mkparser input) ≤ fuel) : mainWith fuel input = main input := by
  unfold main mainWith
  have hne := readall_enough (budget (mkparser input)) (mkparser input) []
    (budget_enough _)
  have := readall_mono (budget (mkparser input)) (fuel - budget (mkparser input))
    (mkparser input) [] hne
  rw [Nat.add_sub_cancel' h] at this
  rw [this]

theorem eval_agree (t : Node) (a1 a2 : Nat)
    (h : ∀ i ∈ vars t, a1 / 2 ^ i % 2 = a2 / 2 ^ i % 2) :
    eval t a1 = eval t a2 := by
  induction t with
  | null => rfl
  | mk ty id l r ihl ihr =>
    cases ty
    all_goals simp only [vars, List.mem_append, List.mem_singleton] at h
    case ID =>
      simp only [eval, Nat.and_one_is_mod, Nat.shiftRight_eq_div_pow]
      rw [h id rfl]
    all_goals
      have hl := ihl (fun i hi => h i (Or.inl hi))
      have hr := ihr (fun i hi => h i (Or.inr hi))
      simp only [eval, hl, hr]

theorem bit_mod_two_pow (a n i : Nat) (h : i < n) :
    a % 2 ^ n / 2 ^ i % 2 = a / 2 ^ i % 2 := by
  have h1 := Nat.testBit_mod_two_pow a n i
  simp only [h, decide_True, Bool.true_and] at h1
  rw [Nat.testBit_to_div_mod, Nat.testBit_to_div_mod] at h1
  have hA := Nat.mod_lt (a % 2 ^ n / 2 ^ i) (by decide : 0 < 2)
  have hB := Nat.mod_lt (a / 2 ^ i) (by decide : 0 < 2)
  by_cases hb : a / 2 ^ i % 2 = 1
  · simp only [hb, decide_True, decide_eq_true_eq] at h1
    rw [h1, hb]
  · simp only [hb, decide_False, decide_eq_false_iff_not] at h1
    omega

/-- C20. Evaluation depends only on the variables that occur: for a
well-formed tree `t` whose indices are all below 32 and two assignments
that agree on bit `i` for every index `i` occurring in `t`, `eval` returns
the same value, which is 0 or 1; if all indices are below `n` then `eval`
returns the same value on `a` and on `a mod 2^n`, so a formula that is true
under every assignment below `2^n` is true under every assignment, and an
argument with the conclusion `t` that has no counterexample below `2^n` has
none at all. -/
theorem eval_depends_on_vars (t : Node) (a1 a2 : Nat)
    (hwf : WellFormed t) (h32 : ∀ i ∈ vars t, i < 32)
    (hagree : ∀ i ∈ vars t, a1 / 2 ^ i % 2 = a2 / 2 ^ i % 2) :
    eval t a1 = eval t a2 ∧
    (∃ v, eval t a1 = some v ∧ (v = 0 ∨ v = 1)) ∧
    (∀ n a, (∀ i ∈ vars t, i < n) → eval t a = eval t (a % 2 ^ n)) ∧
    (∀ n, (∀ i ∈ vars t, i < n) →
      (∀ a, a < 2 ^ n → Holds t a) → ∀ a, Holds t a) ∧
    (∀ (n : Nat) (prem : List Node),
      (∀ i ∈ vars t, i < n) → (∀ e ∈ prem, ∀ i ∈ vars e, i < n) →
      (∀ a, a < 2 ^ n → (∀ e ∈ prem, Holds e a) → Holds t a) →
      ∀ a, (∀ e ∈ prem, Holds e a) → Holds t a) := by
  have _ := h32
  have hmod : ∀ (e : Node) (n a : Nat), (∀ i ∈ vars e, i < n) →
      eval e a = eval e (a % 2 ^ n) := by
    intro e n a hn
    apply eval_agree
    intro i hi
    exact (bit_mod_two_pow a n i (hn i hi)).symm
  refine ⟨eval_agree t a1 a2 hagree, ?_, hmod t, ?_, ?_⟩
  · obtain ⟨v, hv, hv1⟩ := eval_wf t a1 hwf
    exact ⟨v, hv, bit_cases v hv1⟩
  · intro n hn hall a
    have := hall (a % 2 ^ n) (Nat.mod_lt _ (Nat.two_pow_pos n))
    unfold Holds at this ⊢
    rw [hmod t n a hn]
    exact this
  · intro n prem hn hprem hall a hp
    have := hall (a % 2 ^ n) (Nat.mod_lt _ (Nat.two_pow_pos n)) (by
      intro e he
      have h1 := hp e he
      unfold Holds at h1 ⊢
      rw [← hmod e n a (hprem e he)]
      exact h1)
    unfold Holds at this ⊢
    rw [hmod t n a hn]
    exact this

/-- Witness of C20: `OR(p, NOT(q))` under the assignments 1 and 5, which
agree on the bits 0 and 1. -/
theorem eval_depends_on_vars_witness :
    eval (Node.mk Token.OR 0 (Node.mk Token.ID 0 Node.null Node.null)
        (Node.mk Token.NOT 0 (Node.mk Token.ID 1 Node.null Node.null) Node.null)) 1 =
      eval (Node.mk Token.OR 0 (Node.mk Token.ID 0 Node.null Node.null)
        (Node.mk Token.NOT 0 (Node.mk Token.ID 1 Node.null Node.null) Node.null)) 5 :=
  (eval_depends_on_vars
    (Node.mk Token.OR 0 (Node.mk Token.ID 0 Node.null Node.null)
      (Node.mk Token.NOT 0 (Node.mk Token.ID 1 Node.null Node.null) Node.null)) 1 5
    (by simp [WellFormed]) (by decide) (by decide)).1

theorem dropWhile_prefix (f : Char → Bool) (ws : List Char) (c : Char) (rest : List Char)
    (hws : ∀ x ∈ ws, f x = true) (hc : f c = false) :
    (ws ++ c :: rest).dropWhile f = c :: rest := by
  induction ws with
  | nil => simp [List.dropWhile, hc]
  | cons w ws ih =>
    have hw : f w = true := hws w (by simp)
    simp only [List.cons_append, List.dropWhile_cons, hw, if_true]
    exact ih (fun x hx => hws x (by simp [hx]))

theorem takeWhile_prefix (f : Char → Bool) (ws : List Char) (c : Char) (rest : List Char)
    (hws : ∀ x ∈ ws, f x = true) (hc : f c = false) :
    (ws ++ c :: rest).takeWhile f = ws := by
  induction ws with
  | nil => simp [List.takeWhile, hc]
  | cons w ws ih =>
    have hw : f w = true := hws w (by simp)
    simp only [List.cons_append, List.takeWhile_cons, hw, if_true]
    rw [ih (fun x hx => hws x (by simp [hx]))]

theorem takeWhile_all (f : Char → Bool) (ws : List Char)
    (hws : ∀ x ∈ ws, f x = true) : ws.takeWhile f = ws := by
  induction ws with
  | nil => rfl
  | cons w ws ih =>
    have hw : f w = true := hws w (by simp)
    simp only [List.takeWhile_cons, hw, if_true]
    rw [ih (fun x hx => hws x (by simp [hx]))]

theorem dropWhile_all (f : Char → Bool) (ws : List Char)
    (hws : ∀ x ∈ ws, f x = true) : ws.dropWhile f = [] := by
  induction ws with
  | nil => rfl
  | cons w ws ih =>
    have hw : f w = true := hws w (by simp)
    simp only [List.dropWhile_cons, hw, if_true]
    exact ih (fun x hx => hws x (by simp [hx]))

theorem cstr_of_no_nul (b : List Char) (h : ∀ x ∈ b, x ≠ '\x00') : cstr b = b := by
  unfold cstr
  apply takeWhile_all
  intro x hx
  simpa using h x hx

theorem classify_eq (tok : List Char) : classify tok = tokenOf (cstr tok) := by
  have e1 : cstr ['~'] = ['~'] := by decide
  have e2 : cstr ['o', 'r'] = ['o', 'r'] := by decide
  have e3 : cstr ['n', 'o', 't'] = ['n', 'o', 't'] := by decide
  have e4 : cstr ['<', '-', '>'] = ['<', '-', '>'] := by decide
  have e5 : cstr ['-', '>'] = ['-', '>'] := by decide
  have e6 : cstr ['('] = ['('] := by decide
  have e7 : cstr [')'] = [')'] := by decide
  unfold classify tokenOf
  simp only [streq, beq_iff_eq, e1, e2, e3, e4, e5, e6, e7]
  generalize cstr tok = s
  by_cases h1 : s = ['~']
  · simp [h1]
  · by_cases h2 : s = ['o', 'r']
    · simp [h2]
    · by_cases h3 : s = ['n', 'o', 't']
      · simp [h3]
      · have h1' : ¬ ['~'] = s := fun h => h1 h.symm
        have h2' : ¬ ['o', 'r'] = s := fun h => h2 h.symm
        have h3' : ¬ ['n', 'o', 't'] = s := fun h => h3 h.symm
        simp only [h1, h2, h3, h1', h2', h3', or_self, if_false]
        simp only [eq_comm]

theorem tokenOf_ne_and (text : List Char) : tokenOf text ≠ Token.AND := by
  unfold tokenOf
  repeat' split
  all_goals simp

/-- C12. On the stream `p` without a character after it `readtoken` stores
the lexeme in `tok` and returns EOF, although the stream held a
non-whitespace character; a fresh session on `p` starts with the lookahead
EOF and `main` reads no formula.  On `p -> q`, `p`, `q` without a final
newline the conclusion `q` is lost and `main` judges the argument `p -> q`,
`p` invalid, where with the final newline it exits with success. -/
theorem final_lexeme_dropped :
    readtoken { var := [], tok := [], fp := ['p'], next := none } =
      (none, { var := [], tok := ['p'], fp := [], next := none }) ∧
    (mkparser "p".toList).next = none ∧
    readall (budget (mkparser "p".toList)) (mkparser "p".toList) [] =
      Outcome.done ([], { var := [], tok := ['p'], fp := [], next := none }) ∧
    readall (budget (mkparser "p -> q\np\nq".toList)) (mkparser "p -> q\np\nq".toList) [] =
      Outcome.done
        ([Node.mk Token.IF 0 (Node.mk Token.ID 0 Node.null Node.null)
            (Node.mk Token.ID 1 Node.null Node.null),
          Node.mk Token.ID 0 Node.null Node.null],
         { var := [['p'], ['q']], tok := ['q'], fp := [], next := none }) ∧
    main "p -> q\np\nq".toList = Outcome.done Exit.EXIT_FAILURE ∧
    main "p -> q\np\nq\n".toList = Outcome.done Exit.EXIT_SUCCESS := by
  decide

/-- C13. `readterm` entered with the lookahead AND, OR, IF, IFF or RPAREN
reaches `assert(0)` and aborts, for every session; on the inputs `)` and
`p or )` the call of `readcond` and the whole program abort. -/
theorem malformed_term_aborts :
    (∀ (fuel : Nat) (p : Parser), readterm (fuel + 1) { p with next := some Token.AND } = Outcome.crash) ∧
    (∀ (fuel : Nat) (p : Parser), readterm (fuel + 1) { p with next := some Token.OR } = Outcome.crash) ∧
    (∀ (fuel : Nat) (p : Parser), readterm (fuel + 1) { p with next := some Token.IF } = Outcome.crash) ∧
    (∀ (fuel : Nat) (p : Parser), readterm (fuel + 1) { p with next := some Token.IFF } = Outcome.crash) ∧
    (∀ (fuel : Nat) (p : Parser), readterm (fuel + 1) { p with next := some Token.RPAREN } = Outcome.crash) ∧
    (mkparser ") ".toList).next = some Token.RPAREN ∧
    parse (mkparser ") ".toList) = Outcome.crash ∧
    main ") ".toList = Outcome.crash ∧
    parse (mkparser "p or ) ".toList) = Outcome.crash ∧
    main "p or ) ".toList = Outcome.crash := by
  refine ⟨fun _ _ => rfl, fun _ _ => rfl, fun _ _ => rfl, fun _ _ => rfl, fun _ _ => rfl,
    ?_, ?_, ?_, ?_, ?_⟩ <;> decide

/-- C14. On `(` followed by a blank and the end of input the inner
`readcond` returns `NULL`, the lookahead is EOF and not RPAREN, and
`readterm` calls `delete(NULL)`, which dereferences `NULL`: `readcond` and
`main` crash.  The same happens on `(p -> q`, where the lexeme `q` is lost
at the end of input.  On `(p -> q` followed by a blank the inner tree is
there, is destroyed, and `readcond` returns `NULL`. -/
theorem unbalanced_paren_crashes :
    delete Node.null = false ∧
    (mkparser "( ".toList) =
      { var := [], tok := ['('], fp := [' '], next := some Token.LPAREN } ∧
    parse (accept (mkparser "( ".toList)) =
      Outcome.done (Node.null, { var := [], tok := ['('], fp := [], next := none }) ∧
    parse (mkparser "( ".toList) = Outcome.crash ∧
    main "( ".toList = Outcome.crash ∧
    parse (mkparser "(p -> q".toList) = Outcome.crash ∧
    main "(p -> q".toList = Outcome.crash ∧
    parse (mkparser "(p -> q ".toList) =
      Outcome.done (Node.null,
        { var := [['p'], ['q']], tok := ['q'], fp := [], next := none }) := by
  decide

/-- C16. On `~` followed by a blank and the end of input `readcond` returns
a NOT node whose left child is `NULL`; on `p or ~` it returns an OR node
whose right child is such a NOT node.  Neither tree is well-formed, and
`eval`, `print` and `main` crash on them. -/
theorem not_node_without_child :
    parse (mkparser "~ ".toList) =
      Outcome.done (Node.mk Token.NOT 0 Node.null Node.null,
        { var := [], tok := ['~'], fp := [], next := none }) ∧
    ¬ WellFormed (Node.mk Token.NOT 0 Node.null Node.null) ∧
    parse (mkparser "p or ~ ".toList) =
      Outcome.done
        (Node.mk Token.OR 0 (Node.mk Token.ID 0 Node.null Node.null)
          (Node.mk Token.NOT 0 Node.null Node.null),
         { var := [['p']], tok := ['~'], fp := [], next := none }) ∧
    ¬ WellFormed (Node.mk Token.OR 0 (Node.mk Token.ID 0 Node.null Node.null)
          (Node.mk Token.NOT 0 Node.null Node.null)) ∧
    eval (Node.mk Token.NOT 0 Node.null Node.null) 0 = none ∧
    main "~ ".toList = Outcome.crash := by
  refine ⟨by decide, by simp [WellFormed], by decide, by simp [WellFormed], by decide,
    by decide⟩

theorem main_of_readall (input : List Char) (fuel : Nat) (expr : List Node) (p : Parser)
    (h : readall fuel (mkparser input) [] = Outcome.done (expr, p)) :
    main input = verdict expr p.nvar := by
  have hne : readall fuel (mkparser input) [] ≠ Outcome.timeout := by
    rw [h]
    intro hc
    cases hc
  have h1 := readall_mono fuel (budget (mkparser input)) (mkparser input) [] hne
  have h2 := mainWith_budget input (fuel + budget (mkparser input)) (by omega)
  rw [← h2]
  unfold mainWith
  rw [h1, h]

theorem validity_nil (nvar : Nat) : validity [] nvar = some true := by
  unfold validity
  rw [outer_true_iff]
  intro j _
  rfl

/-- C15, counterexample to the claim as stated. On the malformed input
`(p -> q` followed by a blank no formula is read and `main` exits with
success, the outcome for a valid argument and for the empty input; on the
premise `p` followed by the malformed `(q` it exits with failure, the
outcome for the invalid argument `p`, `~p`. -/
theorem parse_failure_looks_like_verdict :
    parse (mkparser "(p -> q ".toList) =
      Outcome.done (Node.null,
        { var := [['p'], ['q']], tok := ['q'], fp := [], next := none }) ∧
    main "(p -> q ".toList = Outcome.done Exit.EXIT_SUCCESS ∧
    main "".toList = Outcome.done Exit.EXIT_SUCCESS ∧
    main "p (q ".toList = Outcome.done Exit.EXIT_FAILURE ∧
    main "p ~p ".toList = Outcome.done Exit.EXIT_FAILURE := by
  decide

theorem mono_of_stable {α β : Type} (f : Nat → α → Outcome β)
    (hst : ∀ fuel x, f fuel x ≠ Outcome.timeout → f (fuel + 1) x = f fuel x)
    (fuel k : Nat) (x : α) (r : β) (h : f fuel x = Outcome.done r) :
    f (fuel + k) x = Outcome.done r := by
  induction k with
  | zero => exact h
  | succ k ih =>
    rw [← Nat.add_assoc, hst (fuel + k) x (by rw [ih]; intro hc; cases hc), ih]

theorem readterm_more (fuel k : Nat) (p : Parser) (r : Node × Parser)
    (h : readterm fuel p = Outcome.done r) : readterm (fuel + k) p = Outcome.done r :=
  mono_of_stable readterm (fun n => (stable_all n).1) fuel k p r h

theorem readexpr_more (fuel k : Nat) (p : Parser) (r : Node × Parser)
    (h : readexpr fuel p = Outcome.done r) : readexpr (fuel + k) p = Outcome.done r :=
  mono_of_stable readexpr (fun n => (stable_all n).2.2.1) fuel k p r h

theorem readcond_more (fuel k : Nat) (p : Parser) (r : Node × Parser)
    (h : readcond fuel p = Outcome.done r) : readcond (fuel + k) p = Outcome.done r :=
  mono_of_stable readcond (fun n => (stable_all n).2.2.2.2) fuel k p r h

theorem readexprLoop_more (fuel k : Nat) (p : Parser) (e : Node) (r : Node × Parser)
    (h : readexprLoop fuel p e = Outcome.done r) :
    readexprLoop (fuel + k) p e = Outcome.done r :=
  mono_of_stable (fun n (x : Parser × Node) => readexprLoop n x.1 x.2)
    (fun n x => (stable_all n).2.1 x.1 x.2) fuel k (p, e) r h

theorem readcondLoop_more (fuel k : Nat) (p : Parser) (e : Node) (r : Node × Parser)
    (h : readcondLoop fuel p e = Outcome.done r) :
    readcondLoop (fuel + k) p e = Outcome.done r :=
  mono_of_stable (fun n (x : Parser × Node) => readcondLoop n x.1 x.2)
    (fun n x => (stable_all n).2.2.2.1 x.1 x.2) fuel k (p, e) r h

theorem exprLoop_fold (steps : List (Token × Node × Parser)) :
    ∀ (p0 : Parser) (e : Node), Chain exprOp readterm p0 steps →
      exprOp (lastState p0 steps).next = none →
      ∃ fuel, readexprLoop fuel p0 e =
        Outcome.done (foldTree e steps, lastState p0 steps) := by
  induction steps with
  | nil =>
    intro p0 e _ hend
    refine ⟨1, ?_⟩
    rw [readexprLoop]
    simp only [lastState] at hend
    rw [hend]
    rfl
  | cons s rest ih =>
    obtain ⟨op, t, p1⟩ := s
    intro p0 e hch hend
    obtain ⟨hop, ⟨f1, hr⟩, hne, hrest⟩ := hch
    obtain ⟨f2, hl⟩ := ih p1 (mknode op 0 e t) hrest hend
    refine ⟨f1 + f2 + 1, ?_⟩
    rw [readexprLoop, hop]
    dsimp only
    rw [readterm_more f1 f2 _ _ hr]
    cases t with
    | null => exact absurd rfl hne
    | mk ty id l r =>
      dsimp only
      have := readexprLoop_more f2 f1 _ _ _ hl
      rw [Nat.add_comm f2 f1] at this
      exact this

theorem condLoop_fold (steps : List (Token × Node × Parser)) :
    ∀ (p0 : Parser) (e : Node), Chain condOp readexpr p0 steps →
      condOp (lastState p0 steps).next = none →
      ∃ fuel, readcondLoop fuel p0 e =
        Outcome.done (foldTree e steps, lastState p0 steps) := by
  induction steps with
  | nil =>
    intro p0 e _ hend
    refine ⟨1, ?_⟩
    rw [readcondLoop]
    simp only [lastState] at hend
    rw [hend]
    rfl
  | cons s rest ih =>
    obtain ⟨op, t, p1⟩ := s
    intro p0 e hch hend
    obtain ⟨hop, ⟨f1, hr⟩, hne, hrest⟩ := hch
    obtain ⟨f2, hl⟩ := ih p1 (mknode op 0 e t) hrest hend
    refine ⟨f1 + f2 + 1, ?_⟩
    rw [readcondLoop, hop]
    dsimp only
    rw [readexpr_more f1 f2 _ _ hr]
    cases t with
    | null => exact absurd rfl hne
    | mk ty id l r =>
      dsimp only
      have := readcondLoop_more f2 f1 _ _ _ hl
      rw [Nat.add_comm f2 f1] at this
      exact this

theorem readexpr_fold (p : Parser) (t0 : Node) (p0 : Parser)
    (steps : List (Token × Node × Parser))
    (h0 : Reads readterm p t0 p0) (hne : t0 ≠ Node.null)
    (hch : Chain exprOp readterm p0 steps)
    (hend : exprOp (lastState p0 steps).next = none) :
    Reads readexpr p (foldTree t0 steps) (lastState p0 steps) := by
  obtain ⟨f1, hr⟩ := h0
  obtain ⟨f2, hl⟩ := exprLoop_fold steps p0 t0 hch hend
  refine ⟨f1 + f2 + 1, ?_⟩
  rw [readexpr, readterm_more f1 f2 _ _ hr]
  cases t0 with
  | null => exact absurd rfl hne
  | mk ty id l r =>
    dsimp only
    have := readexprLoop_more f2 f1 _ _ _ hl
    rw [Nat.add_comm f2 f1] at this
    exact this

theorem readcond_fold (p : Parser) (e0 : Node) (p0 : Parser)
    (steps : List (Token × Node × Parser))
    (h0 : Reads readexpr p e0 p0) (hne : e0 ≠ Node.null)
    (hch : Chain condOp readexpr p0 steps)
    (hend : condOp (lastState p0 steps).next = none) :
    Reads readcond p (foldTree e0 steps) (lastState p0 steps) := by
  obtain ⟨f1, hr⟩ := h0
  obtain ⟨f2, hl⟩ := condLoop_fold steps p0 e0 hch hend
  refine ⟨f1 + f2 + 1, ?_⟩
  rw [readcond, readexpr_more f1 f2 _ _ hr]
  cases e0 with
  | null => exact absurd rfl hne
  | mk ty id l r =>
    dsimp only
    have := readcondLoop_more f2 f1 _ _ _ hl
    rw [Nat.add_comm f2 f1] at this
    exact this

theorem parse_of_reads (p : Parser) (t : Node) (p1 : Parser)
    (h : Reads readcond p t p1) : parse p = Outcome.done (t, p1) := by
  obtain ⟨f, hr⟩ := h
  have h1 := readcond_more f (budget p) p _ hr
  rw [readcond_budget p (f + budget p) (by omega)] at h1
  exact h1

theorem chain_cond_ops (steps : List (Token × Node × Parser)) :
    ∀ p0 : Parser, Chain condOp readexpr p0 steps →
      ∀ s ∈ steps, s.1 = Token.IF ∨ s.1 = Token.IFF := by
  induction steps with
  | nil => intro _ _ s hs; cases hs
  | cons s0 rest ih =>
    obtain ⟨op, t, p1⟩ := s0
    intro p0 hch s hs
    obtain ⟨hop, _, _, hrest⟩ := hch
    rcases List.mem_cons.1 hs with h | h
    · rw [h]
      unfold condOp at hop
      split at hop
      · cases hop; exact Or.inl rfl
      · cases hop; exact Or.inr rfl
      · cases hop
    · exact ih p1 hrest s h

theorem chain_expr_ops (steps : List (Token × Node × Parser)) :
    ∀ p0 : Parser, Chain exprOp readterm p0 steps →
      ∀ s ∈ steps, s.1 = Token.AND ∨ s.1 = Token.OR := by
  induction steps with
  | nil => intro _ _ s hs; cases hs
  | cons s0 rest ih =>
    obtain ⟨op, t, p1⟩ := s0
    intro p0 hch s hs
    obtain ⟨hop, _, _, hrest⟩ := hch
    rcases List.mem_cons.1 hs with h | h
    · rw [h]
      unfold exprOp at hop
      split at hop
      · cases hop; exact Or.inl rfl
      · cases hop; exact Or.inr rfl
      · cases hop
    · exact ih p1 hrest s h

/-- C17. Grammar conformance of `readcond`.  When from the session `p` on
`readexpr` reads a first operand `e0` and the tokens go on as a sequence
`op1 e1 ... opk ek` whose operators pass the loop test of `readcond` (they
are IF or IFF), whose operands are trees read by `readexpr`, and which is
followed by a token that is neither IF nor IFF, `readcond` returns the left
fold `(...((e0 op1 e1) op2 e2)... opk ek)`.  Each operand is itself a left
fold: when `readterm` reads a first term `t0` and the tokens go on as a
sequence of AND or OR operators and terms followed by another token,
`readexpr` returns the left fold of the terms. -/
theorem readcond_left_fold (p : Parser) (e0 : Node) (p0 : Parser)
    (steps : List (Token × Node × Parser))
    (h0 : Reads readexpr p e0 p0) (hne : e0 ≠ Node.null)
    (hch : Chain condOp readexpr p0 steps)
    (hend : condOp (lastState p0 steps).next = none) :
    parse p = Outcome.done (foldTree e0 steps, lastState p0 steps) ∧
    (∀ s ∈ steps, s.1 = Token.IF ∨ s.1 = Token.IFF) ∧
    (∀ (q : Parser) (t0 : Node) (q0 : Parser) (terms : List (Token × Node × Parser)),
      Reads readterm q t0 q0 → t0 ≠ Node.null →
      Chain exprOp readterm q0 terms →
      exprOp (lastState q0 terms).next = none →
      Reads readexpr q (foldTree t0 terms) (lastState q0 terms) ∧
        ∀ s ∈ terms, s.1 = Token.AND ∨ s.1 = Token.OR) :=
  ⟨parse_of_reads p _ _ (readcond_fold p e0 p0 steps h0 hne hch hend),
   chain_cond_ops steps p0 hch,
   fun q t0 q0 terms h1 h2 h3 h4 =>
     ⟨readexpr_fold q t0 q0 terms h1 h2 h3 h4, chain_expr_ops terms q0 h3⟩⟩

/-- Witness of C17: on `p -> q -> r` the operands `p`, `q`, `r` are read
one after the other and `readcond` returns `IF(IF(p, q), r)`; on
`p -> q or r` it returns `IF(p, OR(q, r))` and on `p or q -> r` it returns
`IF(OR(p, q), r)`. -/
theorem readcond_left_fold_witness :
    parse (mkparser "p -> q -> r ".toList) =
      Outcome.done
        (Node.mk Token.IF 0
          (Node.mk Token.IF 0 (Node.mk Token.ID 0 Node.null Node.null)
            (Node.mk Token.ID 1 Node.null Node.null))
          (Node.mk Token.ID 2 Node.null Node.null),
         { var := [['p'], ['q'], ['r']], tok := ['r'], fp := [], next := none }) ∧
    parse (mkparser "p -> q or r ".toList) =
      Outcome.done
        (Node.mk Token.IF 0 (Node.mk Token.ID 0 Node.null Node.null)
          (Node.mk Token.OR 0 (Node.mk Token.ID 1 Node.null Node.null)
            (Node.mk Token.ID 2 Node.null Node.null)),
         { var := [['p'], ['q'], ['r']], tok := ['r'], fp := [], next := none }) ∧
    parse (mkparser "p or q -> r ".toList) =
      Outcome.done
        (Node.mk Token.IF 0
          (Node.mk Token.OR 0 (Node.mk Token.ID 0 Node.null Node.null)
            (Node.mk Token.ID 1 Node.null Node.null))
          (Node.mk Token.ID 2 Node.null Node.null),
         { var := [['p'], ['q'], ['r']], tok := ['r'], fp := [], next := none }) :=
  ⟨(readcond_left_fold (mkparser "p -> q -> r ".toList)
      (Node.mk Token.ID 0 Node.null Node.null)
      { var := [['p']], tok := ['-', '>'], fp := " q -> r ".toList, next := some Token.IF }
      [(Token.IF, Node.mk Token.ID 1 Node.null Node.null,
         { var := [['p'], ['q']], tok := ['-', '>'], fp := " r ".toList,
           next := some Token.IF }),
       (Token.IF, Node.mk Token.ID 2 Node.null Node.null,
         { var := [['p'], ['q'], ['r']], tok := ['r'], fp := [], next := none })]
      ⟨3, by decide⟩ (by decide)
      ⟨by decide, ⟨3, by decide⟩, by decide, by decide, ⟨3, by decide⟩, by decide, trivial⟩
      (by decide)).1,
   by decide, by decide⟩

theorem orNots_wf (k : Nat) : WellFormed (orNots k) := by
  induction k with
  | zero => simp [orNots, WellFormed]
  | succ k ih => exact ⟨ih, ⟨rfl, rfl⟩, rfl⟩

theorem eval_not_id (i j : Nat) (h : j / 2 ^ i % 2 = 0) :
    eval (Node.mk Token.NOT 0 (Node.mk Token.ID i Node.null Node.null) Node.null) j
      = some 1 := by
  simp only [eval, Nat.and_one_is_mod, Nat.shiftRight_eq_div_pow, h]
  rfl

theorem eval_orNots (k j : Nat) (h : ∃ i, i ≤ k ∧ j / 2 ^ i % 2 = 0) :
    eval (orNots k) j = some 1 := by
  induction k with
  | zero =>
    obtain ⟨i, hi, hb⟩ := h
    have : i = 0 := by omega
    subst this
    exact eval_not_id 0 j hb
  | succ k ih =>
    obtain ⟨i, hi, hb⟩ := h
    have hr : WellFormed
        (Node.mk Token.NOT 0 (Node.mk Token.ID (k + 1) Node.null Node.null) Node.null) :=
      ⟨⟨rfl, rfl⟩, rfl⟩
    obtain ⟨u, hu, hu1⟩ := eval_wf (orNots k) j (orNots_wf k)
    obtain ⟨v, hv, hv1⟩ := eval_wf _ j hr
    rcases Nat.lt_or_ge i (k + 1) with hlt | hge
    · have hl := ih ⟨i, by omega, hb⟩
      rw [orNots, eval, hl, hv]
      rcases bit_cases v hv1 with rfl | rfl <;> rfl
    · have hik : i = k + 1 := by omega
      subst hik
      have hr1 := eval_not_id (k + 1) j hb
      rw [orNots, eval, hu, hr1]
      rcases bit_cases u hu1 with rfl | rfl <;> rfl

theorem all_bits_one (m j : Nat) (h : ∀ i, i < m → j / 2 ^ i % 2 = 1) :
    j % 2 ^ m = 2 ^ m - 1 := by
  induction m with
  | zero => simp [Nat.mod_one]
  | succ m ih =>
    rw [Nat.mod_pow_succ, ih (fun i hi => h i (by omega)), h m (by omega)]
    have := Nat.two_pow_pos m
    rw [Nat.pow_succ]
    omega

theorem zero_bit_below (j : Nat) (h : j < 4294967295) :
    ∃ i, i ≤ 31 ∧ j / 2 ^ i % 2 = 0 := by
  by_contra hc
  have hall : ∀ i, i < 32 → j / 2 ^ i % 2 = 1 := by
    intro i hi
    have hb := Nat.mod_lt (j / 2 ^ i) (by decide : 0 < 2)
    by_contra h1
    exact hc ⟨i, by omega, by omega⟩
  have := all_bits_one 32 j hall
  have e : (2 : Nat) ^ 32 = 4294967296 := by norm_num
  rw [e] at this
  omega

theorem orNots_valid_for_every_count (n : Nat) (h : n < 4294967296) :
    outer [orNots 31] 0 n = some true := by
  rw [outer_true_iff]
  intro j hj
  rw [Nat.zero_add]
  have he := eval_orNots 31 j (zero_bit_below j (by omega))
  simp [inner, he]

set_option maxRecDepth 100000 in
/-- C18. On one formula over 32 distinct variables, `~a or ~b or ... or ~F`,
which is false under the assignment `2^32 - 1`, the reading loop of `main`
ends with `nvar = 32` inside all buffers.  Whatever value `n` the shift
`1 << nvar` leaves in the `unsigned` variable, `n` is below `2^32` and so is
not `2^nvar`, and the validity loops run with the count `n` end with
`valid = 1`: the assignment that falsifies the formula is never
enumerated. -/
theorem wide_count_below_all_assignments :
    ∃ e p, readall (budget (mkparser wideNots)) (mkparser wideNots) [] =
        Outcome.done ([e], p) ∧
      p.nvar = 32 ∧ p.overrun = false ∧ WellFormed e ∧
      eval e 4294967295 = some 0 ∧ 4294967295 < 2 ^ p.nvar ∧
      ∀ n, n < 4294967296 → n ≠ 2 ^ p.nvar ∧ outer [e] 0 n = some true := by
  refine ⟨orNots 31,
    { var := ("abcdefghijklmnopqrstuvwxyzABCDEF".toList).map (fun c => [c]),
      tok := ['F'], fp := [], next := none }, ?_, ?_, ?_, orNots_wf 31, ?_, ?_, ?_⟩
  · decide!
  · decide!
  · rfl
  · decide!
  · decide!
  · intro n hn
    refine ⟨?_, orNots_valid_for_every_count n hn⟩
    show n ≠ 2 ^ 32
    have e2 : (2 : Nat) ^ 32 = 4294967296 := by norm_num
    omega

theorem readtoken_lexeme (p : Parser) (ws : List Char) (ch : Char) (run : List Char)
    (c : Char) (rest : List Char)
    (hfp : p.fp = ws ++ ch :: (run ++ c :: rest))
    (hws : ∀ x ∈ ws, isspace x = true) (hch : isspace ch = false)
    (hrun : ∀ x ∈ run, runTest ch x = true) (hc : runTest ch c = false) :
    readtoken p =
      (some (classify (ch :: run)),
       { p with tok := ch :: run, fp := c :: rest,
                overrun := p.overrun || decide (MAXTOK ≤ (ch :: run).length) }) := by
  unfold readtoken
  rw [hfp, dropWhile_prefix isspace ws ch _ hws hch]
  dsimp only
  have h1 := dropWhile_prefix (runTest ch) run c rest hrun hc
  have h2 := takeWhile_prefix (runTest ch) run c rest hrun hc
  unfold runTest at h1 h2
  rw [h1, h2]

/-- C11, as amended. Lexer segmentation and classification: on a stream
made of whitespace `ws`, a lexeme `ch :: run` that is a maximal run (of
alphabetic characters when `ch` is alphabetic, of non-whitespace
non-alphabetic characters otherwise), is shorter than `MAXTOK` and holds no
NUL character, and at least one more character `c`, `readtoken` consumes
exactly `ws` and the lexeme, leaves `c` unread, stores the lexeme in `tok`
without leaving the buffer and returns the token of the lexeme: NOT for `~`
and `not`, OR for `or`, IFF for `<->`, IF for `->`, LPAREN for `(`, RPAREN
for `)`, and ID for every other lexeme, the word `and` included; it never
returns AND. -/
theorem readtoken_segments (p : Parser) (ws : List Char) (ch : Char) (run : List Char)
    (c : Char) (rest : List Char)
    (hfp : p.fp = ws ++ ch :: (run ++ c :: rest))
    (hws : ∀ x ∈ ws, isspace x = true) (hch : isspace ch = false)
    (hrun : ∀ x ∈ run, runTest ch x = true) (hc : runTest ch c = false)
    (hlen : (ch :: run).length < MAXTOK) (hnul : ∀ x ∈ ch :: run, x ≠ '\x00') :
    readtoken p =
      (some (tokenOf (ch :: run)),
       { p with tok := ch :: run, fp := c :: rest }) ∧
    tokenOf (ch :: run) ≠ Token.AND ∧
    tokenOf ['a', 'n', 'd'] = Token.ID := by
  refine ⟨?_, tokenOf_ne_and _, by decide⟩
  rw [readtoken_lexeme p ws ch run c rest hfp hws hch hrun hc, classify_eq,
    cstr_of_no_nul _ hnul]
  have hd : decide (MAXTOK ≤ (ch :: run).length) = false := by
    simp only [decide_eq_false_iff_not]
    omega
  rw [hd, Bool.or_false]

/-- Witness of C11 as amended: on the stream ` and x` the lexeme `and` is
consumed, the blank after it is left unread and the token is ID. -/
theorem readtoken_segments_witness :
    readtoken { var := [], tok := [], fp := [' ', 'a', 'n', 'd', ' ', 'x'], next := none } =
      (some Token.ID,
       { var := [], tok := ['a', 'n', 'd'], fp := [' ', 'x'], next := none }) :=
  (readtoken_segments
    { var := [], tok := [], fp := [' ', 'a', 'n', 'd', ' ', 'x'], next := none }
    [' '] 'a' ['n', 'd'] ' ' ['x'] rfl (by decide) (by decide) (by decide) (by decide)
    (by decide) (by decide)).1

/-- C11, counterexample to the claim as stated. On the stream of `~`, a NUL
character and a blank, the lexeme is the two characters `~` and NUL, which
is neither `~` nor `not`, so the claim's token for it is ID; `readtoken`
returns NOT, because `strcmp` reads `tok` up to the NUL.  On a stream of 64
letters and a blank the lexeme is stored in `tok[0..64)` and its terminator
outside `tok[MAXTOK]`. -/
theorem readtoken_nul_and_long_lexeme :
    readtoken { var := [], tok := [], fp := ['~', '\x00', ' '], next := none } =
      (some Token.NOT,
       { var := [], tok := ['~', '\x00'], fp := [' '], next := none }) ∧
    tokenOf ['~', '\x00'] = Token.ID ∧
    (readtoken { var := [], tok := [], fp := List.replicate 64 'a' ++ [' '],
                 next := none }).2.tok = List.replicate 64 'a' ∧
    (readtoken { var := [], tok := [], fp := List.replicate 64 'a' ++ [' '],
                 next := none }).2.overrun = true ∧
    MAXTOK = 64 := by
  decide

theorem verdict_valid_iff (prem : List Node) (concl : Node) (nvar : Nat)
    (hwf : ∀ e ∈ prem ++ [concl], WellFormed e) (hn : nvar < 32) :
    (verdict (prem ++ [concl]) nvar = Outcome.done Exit.EXIT_SUCCESS ↔
      ∀ a, a < 2 ^ nvar → (∀ e ∈ prem, Holds e a) → Holds concl a) ∧
    (verdict (prem ++ [concl]) nvar = Outcome.done Exit.EXIT_FAILURE ↔
      ¬ ∀ a, a < 2 ^ nvar → (∀ e ∈ prem, Holds e a) → Holds concl a) := by
  have hp : ∀ e ∈ prem, WellFormed e := fun e he => hwf e (by simp [he])
  have hc : WellFormed concl := hwf concl (by simp)
  have hiff := validity_iff prem concl nvar hp hc hn
  rcases validity_total prem concl nvar hp hc with h1 | h1
  · have hv := verdict_of_validity _ nvar true hwf h1
    have hval := hiff.1 h1
    rw [hv]
    constructor
    · exact ⟨fun _ => hval, fun _ => rfl⟩
    · constructor
      · intro hc2
        cases hc2
      · intro hc2
        exact absurd hval hc2
  · have hv := verdict_of_validity _ nvar false hwf h1
    have hnv : ¬ ∀ a, a < 2 ^ nvar → (∀ e ∈ prem, Holds e a) → Holds concl a := by
      intro hc2
      have := hiff.2 hc2
      rw [h1] at this
      cases this
    rw [hv]
    constructor
    · constructor
      · intro hc2
        cases hc2
      · intro hc2
        exact absurd hc2 hnv
    · exact ⟨fun _ => hnv, fun _ => rfl⟩

/-- C15, as amended. A parse failure is not reported: whenever the reading
loop of `main` stops, at the end of input or at a syntax error, inside the
buffers, with fewer than 32 variables and with well-formed formulas read so
far, the outcome of `main` is the verdict on these formulas.  It is success
when no formula was read; otherwise it is success exactly when every
assignment that makes all formulas but the last true makes the last one
true, and failure exactly when some assignment does not. -/
theorem parse_failure_gives_verdict (input : List Char) (fuel : Nat)
    (expr : List Node) (p : Parser)
    (h : readall fuel (mkparser input) [] = Outcome.done (expr, p))
    (hin : p.overrun = false) (hlen : expr.length ≤ MAXEXPR) (hn : p.nvar < 32)
    (hwf : ∀ e ∈ expr, WellFormed e) :
    (expr = [] → main input = Outcome.done Exit.EXIT_SUCCESS) ∧
    (∀ prem concl, expr = prem ++ [concl] →
      (main input = Outcome.done Exit.EXIT_SUCCESS ↔
        ∀ a, a < 2 ^ p.nvar → (∀ e ∈ prem, Holds e a) → Holds concl a) ∧
      (main input = Outcome.done Exit.EXIT_FAILURE ↔
        ¬ ∀ a, a < 2 ^ p.nvar → (∀ e ∈ prem, Holds e a) → Holds concl a)) := by
  have _ := hin
  have _ := hlen
  have hm := main_of_readall input fuel expr p h
  constructor
  · intro he
    rw [hm, he]
    unfold verdict
    rw [validity_nil]
    rfl
  · intro prem concl he
    rw [hm, he]
    exact verdict_valid_iff prem concl p.nvar (by rw [← he]; exact hwf) hn

/-- Witness of C15 as amended: on the premise `p` followed by the malformed
`(q` the reading loop stops with the one formula `p` and two variables, and
`main` exits with failure, since `p` is false under the assignment 0. -/
theorem parse_failure_gives_verdict_witness :
    readall 20 (mkparser "p (q ".toList) [] =
      Outcome.done ([Node.mk Token.ID 0 Node.null Node.null],
        { var := [['p'], ['q']], tok := ['q'], fp := [], next := none }) ∧
    (main "p (q ".toList = Outcome.done Exit.EXIT_FAILURE ↔
      ¬ ∀ a, a < 2 ^ 2 → (∀ e ∈ ([] : List Node), Holds e a) →
        Holds (Node.mk Token.ID 0 Node.null Node.null) a) :=
  ⟨by decide,
   ((parse_failure_gives_verdict "p (q ".toList 20
      [Node.mk Token.ID 0 Node.null Node.null]
      { var := [['p'], ['q']], tok := ['q'], fp := [], next := none }
      (by decide) (by decide) (by decide) (by decide) (by simp [WellFormed])).2
      [] (Node.mk Token.ID 0 Node.null Node.null) rfl).2⟩

end Logic
